import Mathlib

/-!
# World Engine document model — verification development

Shallow embedding of `src/Resources/world-engine/editor-app.js`:
the world-document validator, the versioned serializer, the
structure-sharing tree update, the selection manager and the mode
manager, together with theorems about the spec's testable properties.

JavaScript values are modelled by the inductive `JValue`.  Finite
doubles are modelled abstractly as integers (`JNum.fin`): the document
model never performs arithmetic on numbers, it only tests
`Number.isFinite`, so the carrier of finite numbers is irrelevant to
every property proved here.  `NaN` and the two infinities are kept as
separate constructors because the validator distinguishes them.
JavaScript reference identity (`!==`) is modelled as structural
inequality; the two agree on every code path exercised by the theorems
below (the source only compares a value against the very value it read
from the same field, or against a freshly built object).
-/

namespace WorldEngine

/-- A JavaScript number: a finite double (abstracted as an integer),
`NaN`, `Infinity` or `-Infinity`. -/
inductive JNum where
  | fin (q : Int)
  | nan
  | inf
  | ninf
deriving DecidableEq, Repr

/-- A JavaScript value as handled by the editor: `undefined`, `null`,
booleans, numbers, strings, arrays and plain objects (ordered field
lists; keys are unique in every value built by the modelled code). -/
inductive JValue where
  | undef
  | null
  | bool (b : Bool)
  | num (n : JNum)
  | str (s : String)
  | arr (elems : List JValue)
  | obj (fields : List (String × JValue))
deriving Repr

namespace JValue

-- Size measure used for well-founded recursion over `JValue`.
mutual

def jsize : JValue → Nat
  | .arr xs => 1 + jsizeL xs
  | .obj fs => 1 + jsizeF fs
  | _ => 1

def jsizeL : List JValue → Nat
  | [] => 0
  | x :: xs => jsize x + jsizeL xs + 1

def jsizeF : List (String × JValue) → Nat
  | [] => 0
  | (_, v) :: fs => jsize v + jsizeF fs + 1

end

theorem jsize_pos (v : JValue) : 0 < jsize v := by
  cases v <;> simp [jsize]

-- Decidable equality, written by hand because `deriving` does not
-- handle the nesting of `JValue` inside `List`.
mutual

def beqJ : JValue → JValue → Bool
  | .undef, .undef => true
  | .null, .null => true
  | .bool a, .bool b => a == b
  | .num a, .num b => a == b
  | .str a, .str b => a == b
  | .arr xs, .arr ys => beqL xs ys
  | .obj fs, .obj gs => beqF fs gs
  | _, _ => false

def beqL : List JValue → List JValue → Bool
  | [], [] => true
  | x :: xs, y :: ys => beqJ x y && beqL xs ys
  | _, _ => false

def beqF : List (String × JValue) → List (String × JValue) → Bool
  | [], [] => true
  | (k, v) :: fs, (l, w) :: gs => k == l && beqJ v w && beqF fs gs
  | _, _ => false

end

theorem beq_iff_eq_all (m : Nat) :
    (∀ a b : JValue, jsize a ≤ m → (beqJ a b = true ↔ a = b)) ∧
    (∀ xs ys : List JValue, jsizeL xs ≤ m → (beqL xs ys = true ↔ xs = ys)) ∧
    (∀ fs gs : List (String × JValue), jsizeF fs ≤ m → (beqF fs gs = true ↔ fs = gs)) := by
  induction m using Nat.strong_induction_on with
  | _ m ih =>
    refine ⟨?_, ?_, ?_⟩
    · intro a b hm
      cases a <;> cases b <;> try (simp [beqJ]; done)
      case arr.arr xs ys =>
        simp only [jsize] at hm
        have hm1 : m - 1 < m := by omega
        have hl := (ih (m - 1) hm1).2.1 xs ys (by omega)
        simp [beqJ, hl]
      case obj.obj fs gs =>
        simp only [jsize] at hm
        have hm1 : m - 1 < m := by omega
        have hf := (ih (m - 1) hm1).2.2 fs gs (by omega)
        simp [beqJ, hf]
    · intro xs ys hm
      cases xs with
      | nil => cases ys <;> simp [beqL]
      | cons x xs =>
        cases ys with
        | nil => simp [beqL]
        | cons y ys =>
          simp only [jsizeL] at hm
          have hm1 : m - 1 < m := by omega
          have hj := (ih (m - 1) hm1).1 x y (by omega)
          have hl := (ih (m - 1) hm1).2.1 xs ys (by omega)
          simp [beqL, hj, hl]
    · intro fs gs hm
      cases fs with
      | nil => cases gs <;> simp [beqF]
      | cons p fs =>
        obtain ⟨k, v⟩ := p
        cases gs with
        | nil => simp [beqF]
        | cons q gs =>
          obtain ⟨l, w⟩ := q
          simp only [jsizeF] at hm
          have hm1 : m - 1 < m := by omega
          have hj := (ih (m - 1) hm1).1 v w (by omega)
          have hf := (ih (m - 1) hm1).2.2 fs gs (by omega)
          simp [beqF, hj, hf, and_assoc]

theorem beqJ_iff_eq (a b : JValue) : beqJ a b = true ↔ a = b :=
  (beq_iff_eq_all (jsize a)).1 a b le_rfl

instance : DecidableEq JValue := fun a b =>
  decidable_of_iff (beqJ a b = true) (beqJ_iff_eq a b)

-- Lean core provides no `DecidableEq` for `Except`; needed so concrete
-- runs of the (fallible) validator and serializer can be settled by `decide`.
instance {e a : Type} [DecidableEq e] [DecidableEq a] : DecidableEq (Except e a)
  | .ok x, .ok y =>
    if h : x = y then .isTrue (h ▸ rfl) else .isFalse (by intro h2; cases h2; exact h rfl)
  | .error x, .error y =>
    if h : x = y then .isTrue (h ▸ rfl) else .isFalse (by intro h2; cases h2; exact h rfl)
  | .ok _, .error _ => .isFalse (by intro h2; cases h2)
  | .error _, .ok _ => .isFalse (by intro h2; cases h2)

/-- First-match association lookup on an object's field list. -/
def lookupF : List (String × JValue) → String → Option JValue
  | [], _ => none
  | (k, v) :: fs, key => if k = key then some v else lookupF fs key

/-- JavaScript property read on an object: a missing key yields `undefined`. -/
def getF (fs : List (String × JValue)) (key : String) : JValue :=
  (lookupF fs key).getD (.undef)

/-- The JavaScript `in` operator on an object (own properties). -/
def hasF (fs : List (String × JValue)) (key : String) : Bool :=
  (lookupF fs key).isSome

/-- Property read on an arbitrary non-nullish value: only objects carry
the named fields the editor reads; on every other value the read yields
`undefined`.  (Reads on `null`/`undefined` throw in JavaScript; call
sites model that throw explicitly.) -/
def propD (v : JValue) (key : String) : JValue :=
  match v with
  | .obj fs => getF fs key
  | _ => .undef

theorem lookupF_jsize {fs : List (String × JValue)} {key : String} {v : JValue}
    (h : lookupF fs key = some v) : jsize v ≤ jsizeF fs := by
  induction fs with
  | nil => simp [lookupF] at h
  | cons p fs ih =>
    obtain ⟨k, w⟩ := p
    by_cases hk : k = key
    · simp [lookupF, hk] at h
      subst h
      simp [jsizeF]
      omega
    · simp [lookupF, hk] at h
      have := ih h
      simp [jsizeF]
      omega

theorem getF_jsize {fs : List (String × JValue)} {key : String} {v : JValue}
    (h : getF fs key = v) (hv : v ≠ .undef) : jsize v ≤ jsizeF fs := by
  unfold getF at h
  cases hl : lookupF fs key with
  | none => rw [hl] at h; simp [Option.getD] at h; exact absurd h.symm hv
  | some w => rw [hl] at h; simp [Option.getD] at h; subst h; exact lookupF_jsize hl

/-- `isObject` from the source: a non-null, non-array `object`. -/
def isObject : JValue → Bool
  | .obj _ => true
  | _ => false

/-- `isFiniteNumber` from the source: `typeof x === 'number' && Number.isFinite(x)`. -/
def isFiniteNumber : JValue → Bool
  | .num (.fin _) => true
  | _ => false

def isString : JValue → Bool
  | .str _ => true
  | _ => false

/-- JavaScript truthiness of a value. -/
def truthy : JValue → Bool
  | .undef => false
  | .null => false
  | .bool b => b
  | .num (.fin q) => q ≠ 0
  | .num .nan => false
  | .num _ => true
  | .str s => s ≠ ""
  | .arr _ => true
  | .obj _ => true

/-- Whether a value is `null` or `undefined` (property reads on these throw). -/
def nullish : JValue → Bool
  | .undef => true
  | .null => true
  | _ => false

/-- Overwrite or append a field, preserving the insertion order of an
existing key — the behaviour of `{ ...obj, key: value }` on an object
whose keys are unique. -/
def setField : List (String × JValue) → String → JValue → List (String × JValue)
  | [], key, v => [(key, v)]
  | (k, w) :: fs, key, v =>
    if k = key then (k, v) :: fs else (k, w) :: setField fs key v

theorem lookupF_setField_self (fs : List (String × JValue)) (key : String) (v : JValue) :
    lookupF (setField fs key v) key = some v := by
  induction fs with
  | nil => simp [setField, lookupF]
  | cons p fs ih =>
    obtain ⟨k, w⟩ := p
    by_cases hk : k = key
    · simp [setField, hk, lookupF]
    · simp [setField, hk, lookupF, ih]

theorem lookupF_setField_other (fs : List (String × JValue)) (key key' : String)
    (v : JValue) (h : key ≠ key') :
    lookupF (setField fs key v) key' = lookupF fs key' := by
  induction fs with
  | nil => simp [setField, lookupF, h]
  | cons p fs ih =>
    obtain ⟨k, w⟩ := p
    by_cases hk : k = key
    · subst hk
      simp [setField, lookupF, h]
    · simp [setField, hk, lookupF, ih]

theorem getF_setField_self (fs : List (String × JValue)) (key : String) (v : JValue) :
    getF (setField fs key v) key = v := by
  simp [getF, lookupF_setField_self]

theorem getF_setField_other (fs : List (String × JValue)) (key key' : String)
    (v : JValue) (h : key ≠ key') :
    getF (setField fs key v) key' = getF fs key' := by
  simp [getF, lookupF_setField_other _ _ _ _ h]

theorem setField_setField (fs : List (String × JValue)) (key : String) (v w : JValue) :
    setField (setField fs key v) key w = setField fs key w := by
  induction fs with
  | nil => simp [setField]
  | cons p fs ih =>
    obtain ⟨k, u⟩ := p
    by_cases hk : k = key
    · simp [setField, hk]
    · simp [setField, hk, ih]

end JValue

open JValue

/-- One validator error.  Each constructor corresponds to one `errors.push`
site of the source; the carried path is exactly the path string the source
interpolates, and `VErr.render` rebuilds the exact message text. -/
inductive VErr where
  | worldNotObject
  | nodesNotArray
  | assetsNotArray (p : String)
  | assetNotObject (p : String)
  | assetIdInvalid (p : String)
  | assetIdDup (p : String) (id : String)
  | assetUriInvalid (p : String)
  | assetTypeNotString (p : String)
  | nodeNotObject (p : String)
  | nodeIdInvalid (p : String)
  | nodeIdDup (p : String) (id : String)
  | nodeNameNotString (p : String)
  | nodeTagsBad (p : String)
  | nodeComponentsNotArray (p : String)
  | nodeChildrenNotArray (p : String)
  | transformNotObject (p : String)
  | vec3NotObject (p : String)
  | quatNotObject (p : String)
  | numNotFinite (p : String)
  | componentNotObject (p : String)
  | componentTypeInvalid (p : String)
  | componentDataNotObject (p : String)
  | assetRefNotObject (p : String)
  | assetRefIdInvalid (p : String)
  | missingAsset (p : String) (id : String)
  | assetRefOptionsNotObject (p : String)
deriving DecidableEq, Repr

/-- The message string the source pushes for each error. -/
def VErr.render : VErr → String
  | .worldNotObject => "World must be an object"
  | .nodesNotArray => "nodes must be an array"
  | .assetsNotArray p => p ++ " must be an array when present"
  | .assetNotObject p => p ++ " must be an object"
  | .assetIdInvalid p => p ++ ".id must be a non-empty string"
  | .assetIdDup p id => p ++ ".id '" ++ id ++ "' must be unique"
  | .assetUriInvalid p => p ++ ".uri must be a non-empty string"
  | .assetTypeNotString p => p ++ ".type must be a string when present"
  | .nodeNotObject p => p ++ " must be an object"
  | .nodeIdInvalid p => p ++ ".id must be a non-empty string"
  | .nodeIdDup p id => p ++ ".id '" ++ id ++ "' must be unique"
  | .nodeNameNotString p => p ++ ".name must be a string when present"
  | .nodeTagsBad p => p ++ ".tags must be an array of strings when present"
  | .nodeComponentsNotArray p => p ++ ".components must be an array when present"
  | .nodeChildrenNotArray p => p ++ ".children must be an array when present"
  | .transformNotObject p => p ++ " must be an object"
  | .vec3NotObject p => p ++ " must be an object with x, y, and z numbers"
  | .quatNotObject p => p ++ " must be an object with x, y, z, and w numbers"
  | .numNotFinite p => p ++ " must be a finite number"
  | .componentNotObject p => p ++ " must be an object"
  | .componentTypeInvalid p => p ++ ".type must be a non-empty string"
  | .componentDataNotObject p => p ++ ".data must be an object when present"
  | .assetRefNotObject p => p ++ " must be an object"
  | .assetRefIdInvalid p => p ++ ".assetId must be a non-empty string"
  | .missingAsset p id => p ++ ".assetId references missing asset '" ++ id ++ "'"
  | .assetRefOptionsNotObject p => p ++ ".options must be an object when present"

/-- `${base}[${i}]`, the indexed path step used by every forEach of the source. -/
def idxPath (base : String) (i : Nat) : String :=
  base ++ "[" ++ toString i ++ "]"

/-- `!s.trim()` — the string trims to empty, i.e. has only whitespace
(JavaScript's trimmed-whitespace set is approximated by
`Char.isWhitespace`; none of the claims turns on the difference). -/
def blank (s : String) : Bool :=
  s.data.all Char.isWhitespace

/-- `typeof x === 'string' && x.trim()` — a string with non-blank content. -/
def isNonBlankString : JValue → Bool
  | .str s => !blank s
  | _ => false

/-- `Array.isArray(x) && !x.some((t) => typeof t !== 'string')`. -/
def isStringArray : JValue → Bool
  | .arr xs => xs.all isString
  | _ => false

/-- `validateVector3` from the source. -/
def validateVector3 (value : JValue) (path : String) : List VErr :=
  match value with
  | .obj fs =>
    (if isFiniteNumber (getF fs "x") then [] else [.numNotFinite (path ++ ".x")]) ++
    (if isFiniteNumber (getF fs "y") then [] else [.numNotFinite (path ++ ".y")]) ++
    (if isFiniteNumber (getF fs "z") then [] else [.numNotFinite (path ++ ".z")])
  | _ => [.vec3NotObject path]

/-- `validateQuaternion` from the source. -/
def validateQuaternion (value : JValue) (path : String) : List VErr :=
  match value with
  | .obj fs =>
    (if isFiniteNumber (getF fs "x") then [] else [.numNotFinite (path ++ ".x")]) ++
    (if isFiniteNumber (getF fs "y") then [] else [.numNotFinite (path ++ ".y")]) ++
    (if isFiniteNumber (getF fs "z") then [] else [.numNotFinite (path ++ ".z")]) ++
    (if isFiniteNumber (getF fs "w") then [] else [.numNotFinite (path ++ ".w")])
  | _ => [.quatNotObject path]

/-- `validateTransform` from the source. -/
def validateTransform (value : JValue) (path : String) : List VErr :=
  match value with
  | .obj fs =>
    (if hasF fs "position" then validateVector3 (getF fs "position") (path ++ ".position") else []) ++
    (if hasF fs "rotation" then validateQuaternion (getF fs "rotation") (path ++ ".rotation") else []) ++
    (if hasF fs "scale" then validateVector3 (getF fs "scale") (path ++ ".scale") else [])
  | _ => [.transformNotObject path]

/-- `validateComponent` from the source. -/
def validateComponent (component : JValue) (path : String) : List VErr :=
  match component with
  | .obj fs =>
    (if isNonBlankString (getF fs "type") then [] else [.componentTypeInvalid path]) ++
    (if hasF fs "data" && !isObject (getF fs "data") then [.componentDataNotObject path] else [])
  | _ => [.componentNotObject path]

/-- The indexed forEach over `node.components`. -/
def validateComponents : List JValue → String → Nat → List VErr
  | [], _, _ => []
  | c :: cs, path, i => validateComponent c (idxPath path i) ++ validateComponents cs path (i + 1)

/-- `assets.find((asset) => asset.id === assetRef.assetId)` — the property
read `asset.id` throws a TypeError when the entry is `null`/`undefined`
(the asset list handed over by `validateAssets` keeps such entries). -/
def findAsset : List JValue → String → Except String Bool
  | [], _ => .ok false
  | a :: rest, aid =>
    if nullish a then .error "TypeError"
    else if propD a "id" = .str aid then .ok true
    else findAsset rest aid

/-- `validateNodeAssetReference` from the source (the `assets = []` default
is applied by the caller when no asset list was produced). -/
def validateNodeAssetReference (assetRef : JValue) (path : String) (assets : List JValue) :
    Except String (List VErr) :=
  match assetRef with
  | .obj fs =>
    let optionsErr :=
      if hasF fs "options" && !isObject (getF fs "options") then
        [VErr.assetRefOptionsNotObject path]
      else []
    match getF fs "assetId" with
    | .str s =>
      if blank s then .ok ([.assetRefIdInvalid path] ++ optionsErr)
      else
        match findAsset assets s with
        | .error e => .error e
        | .ok found => .ok ((if found then [] else [.missingAsset path s]) ++ optionsErr)
    | _ => .ok ([.assetRefIdInvalid path] ++ optionsErr)
  | _ => .ok [.assetRefNotObject path]

/-- The indexed forEach of `validateAssets`, threading the set of asset
ids already seen (insertion-ordered, as a list with membership test). -/
def validateAssetEntries : List JValue → String → Nat → List String → List VErr
  | [], _, _, _ => []
  | a :: rest, path, i, seen =>
    let p := idxPath path i
    match a with
    | .obj fs =>
      let idPart : List VErr × List String :=
        match getF fs "id" with
        | .str s => if blank s then ([.assetIdInvalid p], seen)
                    else if s ∈ seen then ([.assetIdDup p s], seen)
                    else ([], seen ++ [s])
        | _ => ([.assetIdInvalid p], seen)
      idPart.1 ++
      (if isNonBlankString (getF fs "uri") then [] else [.assetUriInvalid p]) ++
      (if truthy (getF fs "type") && !isString (getF fs "type") then [.assetTypeNotString p] else []) ++
      validateAssetEntries rest path (i + 1) idPart.2
    | _ => [VErr.assetNotObject p] ++ validateAssetEntries rest path (i + 1) seen

/-- `validateAssets` from the source: the second component is the asset
list handed to node reference checks — the raw array whenever the value
was an array (invalid entries included), and `[]` otherwise (the source
returns no `assetList` then, and the `assets = []` parameter default of
`validateNodeAssetReference` kicks in). -/
def validateAssets (assets : JValue) (path : String) : List VErr × List JValue :=
  match assets with
  | .undef => ([], [])
  | .arr xs => (validateAssetEntries xs path 0 [], xs)
  | _ => ([.assetsNotArray path], [])

/-- The id-uniqueness piece of `validateSceneNode`: the errors pushed for
the `id` field and the updated seen-id set. -/
def idCheck (fs : List (String × JValue)) (path : String) (seen : List String) :
    List VErr × List String :=
  match getF fs "id" with
  | .str s => if blank s then ([.nodeIdInvalid path], seen)
              else if s ∈ seen then ([.nodeIdDup path s], seen)
              else ([], seen ++ [s])
  | _ => ([.nodeIdInvalid path], seen)

/-- The name, tags, transform and components checks of `validateSceneNode`,
in the order the source pushes them. -/
def miscChecks (fs : List (String × JValue)) (path : String) : List VErr :=
  (if hasF fs "name" && !isString (getF fs "name") then [VErr.nodeNameNotString path] else []) ++
  (if hasF fs "tags" && !isStringArray (getF fs "tags") then [VErr.nodeTagsBad path] else []) ++
  (if hasF fs "transform" then validateTransform (getF fs "transform") (path ++ ".transform") else []) ++
  (if hasF fs "components" then
    (match getF fs "components" with
     | .arr cs => validateComponents cs (path ++ ".components") 0
     | _ => [VErr.nodeComponentsNotArray path])
   else [])

mutual

-- `validateSceneNode` from the source.  The traversal context is the
-- asset list plus the running set of already-seen node ids (threaded and
-- returned, since the source mutates a shared `Set`); a `TypeError` thrown
-- by the asset reference check surfaces as `.error`.  The id piece and the
-- name/tags/transform/components pieces are the named helpers above; the
-- error list is identical to the source's push order.
def validateSceneNode (node : JValue) (path : String) (assets : List JValue)
    (seen : List String) : Except String (List VErr × List String) :=
  match node with
  | .obj fs =>
    let idPart := idCheck fs path seen
    match (if hasF fs "asset" then validateNodeAssetReference (getF fs "asset") (path ++ ".asset") assets else .ok []) with
    | .error e => .error e
    | .ok assetErr =>
      match hc : lookupF fs "children" with
      | some (.arr cs) =>
        match validateNodeList cs (path ++ ".children") 0 assets idPart.2 with
        | .error e => .error e
        | .ok (childErr, seen') =>
          .ok (idPart.1 ++ miscChecks fs path ++ assetErr ++ childErr, seen')
      | some _ =>
        .ok (idPart.1 ++ miscChecks fs path ++ assetErr ++ [VErr.nodeChildrenNotArray path], idPart.2)
      | none =>
        .ok (idPart.1 ++ miscChecks fs path ++ assetErr, idPart.2)
  | _ => .ok ([.nodeNotObject path], seen)
termination_by jsize node
decreasing_by
  have h := lookupF_jsize hc
  simp [jsize] at h ⊢
  omega

/-- The indexed forEach over a node list (the roots or a `children` array),
threading the shared seen-id set left to right. -/
def validateNodeList (xs : List JValue) (base : String) (i : Nat) (assets : List JValue)
    (seen : List String) : Except String (List VErr × List String) :=
  match xs with
  | [] => .ok ([], seen)
  | x :: rest =>
    match validateSceneNode x (idxPath base i) assets seen with
    | .error e => .error e
    | .ok (errs1, seen1) =>
      match validateNodeList rest base (i + 1) assets seen1 with
      | .error e => .error e
      | .ok (errs2, seen2) => .ok (errs1 ++ errs2, seen2)
termination_by jsizeL xs + 1
decreasing_by
  · have := jsize_pos x
    simp [jsizeL]
    omega
  · have := jsize_pos x
    simp [jsizeL]
    omega

end

/-- `validateWorldDocument` from the source, with structured errors.
`valid` is `errors.length === 0`. -/
def validateWorldDocument (world : JValue) : Except String (Bool × List VErr) :=
  match world with
  | .obj fs =>
    let assetPart := validateAssets (getF fs "assets") "assets"
    match getF fs "nodes" with
    | .arr xs =>
      match validateNodeList xs "nodes" 0 assetPart.2 [] with
      | .error e => .error e
      | .ok (nodeErrs, _) =>
        let errs := assetPart.1 ++ nodeErrs
        .ok (errs.isEmpty, errs)
    | _ =>
      let errs := assetPart.1 ++ [VErr.nodesNotArray]
      .ok (errs.isEmpty, errs)
  | _ => .ok (false, [.worldNotObject])

/-- The message-string view of `validateWorldDocument`: exactly the record
`{ valid, errors }` the source returns, with each error rendered to the
string the source pushes. -/
def validateWorldDocumentMessages (world : JValue) : Except String (Bool × List String) :=
  match validateWorldDocument world with
  | .error e => .error e
  | .ok (v, errs) => .ok (v, errs.map VErr.render)

/-!
## Serializer

Wire text is modelled by its parse tree: `serializeWorld` returns the
`JValue` that `JSON.parse` recovers from the emitted text, so the
`stringify ∘ parse` canonicalisation (`canon`) is applied there —
object fields holding `undefined` are dropped, `undefined` array
elements and non-finite numbers become `null`.
-/

mutual

def canon : JValue → JValue
  | .undef => .null
  | .null => .null
  | .bool b => .bool b
  | .num (.fin q) => .num (.fin q)
  | .num _ => .null
  | .str s => .str s
  | .arr xs => .arr (canonL xs)
  | .obj fs => .obj (canonF fs)

def canonL : List JValue → List JValue
  | [] => []
  | x :: xs => canon x :: canonL xs

def canonF : List (String × JValue) → List (String × JValue)
  | [] => []
  | (k, v) :: fs => if v = .undef then canonF fs else (k, canon v) :: canonF fs

end

-- A value JSON can represent as-is: no `undefined` and no non-finite
-- numbers anywhere.  On such values `canon` is the identity.
mutual

def jsonFaithful : JValue → Bool
  | .undef => false
  | .null => true
  | .bool _ => true
  | .num (.fin _) => true
  | .num _ => false
  | .str _ => true
  | .arr xs => jsonFaithfulL xs
  | .obj fs => jsonFaithfulF fs

def jsonFaithfulL : List JValue → Bool
  | [] => true
  | x :: xs => jsonFaithful x && jsonFaithfulL xs

def jsonFaithfulF : List (String × JValue) → Bool
  | [] => true
  | (_, v) :: fs => jsonFaithful v && jsonFaithfulF fs

end

/-- `{ ...world, version: CURRENT_WORLD_SCHEMA_VERSION }` with the current
supported schema version 1.  A spread keeps an existing `version` key in
place and overwrites its value, otherwise appends the key.  (The non-object
arm is unreachable from `serializeWorld`, which validates first.) -/
def setVersion (doc : JValue) : JValue :=
  match doc with
  | .obj fs => .obj (setField fs "version" (.num (.fin 1)))
  | _ => .obj [("version", .num (.fin 1))]

def invalidMessage (errs : List VErr) : String :=
  "World document is invalid: " ++ String.intercalate "; " (errs.map VErr.render)

/-- `serializeWorld` from the source: validate, throw on invalid, else
stringify the version-stamped document (represented by its parse tree). -/
def serializeWorld (world : JValue) : Except String JValue :=
  match validateWorldDocument world with
  | .error e => .error e
  | .ok (true, _) => .ok (canon (setVersion world))
  | .ok (false, errs) => .error (invalidMessage errs)

/-- `parsed.version > CURRENT_WORLD_SCHEMA_VERSION` for the version values
the wire format admits (numbers; `version` is declared an integer).  For
non-numeric version values JavaScript would coerce via `ToNumber` — that
coercion yields `NaN` (hence `false`) for objects and non-numeric strings
and is not modelled for numeric strings, which no claim exercises. -/
def numGtOne : JNum → Bool
  | .fin q => 1 < q
  | .inf => true
  | _ => false

def versionExceeds (v : JValue) : Bool :=
  match v with
  | .num n => numGtOne n
  | _ => false

def renderNum : JNum → String
  | .fin q => toString q
  | .nan => "NaN"
  | .inf => "Infinity"
  | .ninf => "-Infinity"

/-- String interpolation of the version value in the error message
(only numbers ever reach it, since only they pass `versionExceeds`). -/
def renderVersion : JValue → String
  | .num n => renderNum n
  | .str s => s
  | .null => "null"
  | .undef => "undefined"
  | .bool b => toString b
  | .arr _ => ""
  | .obj _ => "[object Object]"

/-- `deserializeWorld` from the source, taking the already-parsed wire
value (`JSON.parse` of malformed text throws before this logic runs).
An absent `version` is defaulted to `0` by an in-place write; a parsed
version above the supported version 1 aborts before any body validation;
otherwise the body is validated and the result is returned with
`version` stamped to 1. -/
def deserializeWorld (parsed : JValue) : Except String JValue :=
  match parsed with
  | .obj fs =>
    let fs1 := if getF fs "version" = .undef then setField fs "version" (.num (.fin 0)) else fs
    if versionExceeds (getF fs1 "version") then
      .error ("Cannot load future schema version " ++ renderVersion (getF fs1 "version"))
    else
      match validateWorldDocument (.obj fs1) with
      | .error e => .error e
      | .ok (true, _) => .ok (.obj (setField fs1 "version" (.num (.fin 1))))
      | .ok (false, errs) => .error (invalidMessage errs)
  | .arr _ =>
    -- On an array, `parsed.version` is `undefined` and the defaulting write
    -- creates a named array property the model does not carry; the defaulted
    -- 0 never exceeds the supported version, and validation then rejects the
    -- array document, so the net effect is the validation error below.
    .error (invalidMessage [.worldNotObject])
  | _ =>
    -- Primitives and null: the module is strict-mode code, so either the
    -- `parsed.version` read (on null/undefined) or the defaulting property
    -- assignment (on other primitives) throws a TypeError.
    .error "TypeError"

/-!
## Tree index

`updateNodeById` and its helpers.  JavaScript `!==` on nodes is modelled
as structural inequality; the two agree whenever the updater returns
either the very node it received or a structurally different value (the
hypotheses of the theorems below ensure this).
-/

theorem propD_truthy_jsize (v : JValue) (k : String) (h : truthy (propD v k) = true) :
    jsize (propD v k) < jsize v := by
  cases v with
  | obj fs =>
    have hne : getF fs k ≠ .undef := by
      intro hu
      simp [propD, hu, truthy] at h
    have hle := getF_jsize (v := getF fs k) rfl hne
    simp only [propD, jsize]
    omega
  | undef => simp [propD, truthy] at h
  | null => simp [propD, truthy] at h
  | bool b => simp [propD, truthy] at h
  | num n => simp [propD, truthy] at h
  | str s => simp [propD, truthy] at h
  | arr l => simp [propD, truthy] at h

/-- `{ ...value, children: w }`.  For non-objects the spread contributes
no named fields (index properties of strings/arrays are not modelled;
the theorems below restrict updaters to object results). -/
def objSet (v : JValue) (key : String) (w : JValue) : JValue :=
  match v with
  | .obj fs => .obj (setField fs key w)
  | _ => .obj [(key, w)]

mutual

/-- `updateNodeById(nodes, id, updater)` from the source.  `nodes` must be
an array (`nodes.map` throws otherwise); the result pair is
`{ nodes: changed ? mapped : nodes, changed }`. -/
def updateNodeById (nodes : JValue) (id : String) (f : JValue → JValue) :
    Except String (JValue × Bool) :=
  match nodes with
  | .arr xs =>
    match updateList xs id f with
    | .error e => .error e
    | .ok (ys, changed) => .ok (if changed then .arr ys else .arr xs, changed)
  | _ => .error "TypeError"
termination_by jsize nodes
decreasing_by
  simp only [jsize]
  omega

/-- The `nodes.map` body, threading the `changed` accumulator. -/
def updateList (xs : List JValue) (id : String) (f : JValue → JValue) :
    Except String (List JValue × Bool) :=
  match xs with
  | [] => .ok ([], false)
  | node :: rest =>
    match updateOne node id f with
    | .error e => .error e
    | .ok (y, c1) =>
      match updateList rest id f with
      | .error e => .error e
      | .ok (ys, c2) => .ok (y :: ys, c1 || c2)
termination_by jsizeL xs
decreasing_by
  all_goals simp only [jsizeL]
  all_goals omega

/-- Processing of one mapped node: apply the updater on an id match
(`updater(node) ?? node`), recurse into a truthy `children` value, and
rebuild `{ ...nextNode, children }` when either changed. -/
def updateOne (node : JValue) (id : String) (f : JValue → JValue) :
    Except String (JValue × Bool) :=
  if nullish node then .error "TypeError"
  else
    let isMatch := propD node "id" == JValue.str id
    let next0 := if isMatch then (match f node with | .undef => node | .null => node | v => v) else node
    let changed1 := isMatch && (next0 != node)
    let c0 := propD node "children"
    if h : truthy c0 then
      match updateNodeById c0 id f with
      | .error e => .error e
      | .ok (children, childChanged) =>
        let next := if c0 != children || next0 != node then objSet next0 "children" children else next0
        .ok (next, changed1 || childChanged)
    else
      let next := if next0 != node then objSet next0 "children" c0 else next0
      .ok (next, changed1)
termination_by jsize node
decreasing_by
  exact propD_truthy_jsize _ _ h

end

-- Whether some node of the forest value would match `node.id === id` in
-- `updateNodeById`'s traversal (elements of the array, recursively
-- through truthy `children` values).
mutual

def hasMatch (nodes : JValue) (id : String) : Bool :=
  match nodes with
  | .arr xs => hasMatchList xs id
  | _ => false
termination_by jsize nodes
decreasing_by
  simp only [jsize]
  omega

def hasMatchList (xs : List JValue) (id : String) : Bool :=
  match xs with
  | [] => false
  | node :: rest => hasMatchOne node id || hasMatchList rest id
termination_by jsizeL xs
decreasing_by
  all_goals simp only [jsizeL]
  all_goals omega

def hasMatchOne (node : JValue) (id : String) : Bool :=
  (propD node "id" == JValue.str id) ||
    (if h : truthy (propD node "children") then hasMatch (propD node "children") id else false)
termination_by jsize node
decreasing_by
  exact propD_truthy_jsize _ _ h

end

-- Well-formedness of a forest value for `updateNodeById`: the value is
-- an array, no element is nullish (the `node.id` read throws there), and
-- every truthy `children` value is recursively such a forest (the
-- recursion's `nodes.map` throws otherwise).
mutual

def tidyForest (nodes : JValue) : Bool :=
  match nodes with
  | .arr xs => tidyList xs
  | _ => false
termination_by jsize nodes
decreasing_by
  simp only [jsize]
  omega

def tidyList (xs : List JValue) : Bool :=
  match xs with
  | [] => true
  | node :: rest => tidyOne node && tidyList rest
termination_by jsizeL xs
decreasing_by
  all_goals simp only [jsizeL]
  all_goals omega

def tidyOne (node : JValue) : Bool :=
  !nullish node &&
    (if h : truthy (propD node "children") then tidyForest (propD node "children") else true)
termination_by jsize node
decreasing_by
  exact propD_truthy_jsize _ _ h

end

/-!
## Selection manager

The selection `Set` is modelled as an insertion-ordered list of unique
members; `none` is the `undefined` member a wrapped-out-of-range
`focusNext` inserts.  `focused` is `undefined` (`none`) or an id.
-/

structure SelectionState where
  selection : List (Option String)
  focused : Option String
deriving DecidableEq, Repr

/-- JavaScript truthiness of `this.focused`: an id that is not the empty
string. -/
def focusTruthy : Option String → Bool
  | some s => s ≠ ""
  | none => false

def insertUnique (xs : List (Option String)) (x : Option String) : List (Option String) :=
  if x ∈ xs then xs else xs ++ [x]

/-- `new Set(list)`: first occurrence order, duplicates dropped. -/
def jsSetOfList (xs : List (Option String)) : List (Option String) :=
  xs.foldl insertUnique []

/-- `Array.prototype.indexOf`. -/
def jsIndexOfAux : List String → String → Int → Int
  | [], _, _ => -1
  | y :: ys, x, i => if y = x then i else jsIndexOfAux ys x (i + 1)

def jsIndexOf (xs : List String) (x : String) : Int :=
  jsIndexOfAux xs x 0

/-- `SelectionManager.setSelection(ids, focusLast)` from the source. -/
def setSelection (st : SelectionState) (ids : List String) (focusLast : Bool) :
    SelectionState :=
  let next := ids
  let sel := jsSetOfList (next.map some)
  if focusLast then { selection := sel, focused := next.getLast? }
  else if focusTruthy st.focused && !decide (st.focused ∈ sel) then
    { selection := sel, focused := next.head? }
  else { selection := sel, focused := st.focused }

/-- `SelectionManager.focusNext(order, direction)` from the source.
`%` is JavaScript's truncated remainder (`Int.tmod`); a negative
remainder indexes past the array and yields `undefined`. -/
def focusNext (st : SelectionState) (order : List String) (direction : Int) :
    SelectionState × Option String :=
  match order with
  | [] => ({ selection := [], focused := none }, none)
  | _ =>
    let currentIndex : Int :=
      match st.focused with
      | some s => if s ≠ "" then jsIndexOf order s else -1
      | none => -1
    let len : Int := order.length
    let nextIndex : Int := if currentIndex = -1 then 0 else (currentIndex + direction + len).tmod len
    let nextId : Option String := if nextIndex < 0 then none else order.get? nextIndex.toNat
    ({ selection := [nextId], focused := nextId }, nextId)

/-!
## Mode manager

State-passing model of the `ModeManager` class.  The policies of the
`options` record are modelled by their observable results
(`hasUnsavedChanges` and `confirmSwitch` by the value they return or
resolve to, `autoSave` by whether it is configured); hook and listener
invocations are recorded as events.
-/

structure ModeOptions where
  hasUnsavedChanges : Option Bool
  autoSaveConfigured : Bool
  confirmResult : Option Bool
deriving DecidableEq, Repr

structure ModeState where
  mode : String
  dirty : Bool
  contexts : List String
  listeners : Nat
deriving DecidableEq, Repr

inductive ModeEvent where
  | activated (mode : String)
  | deactivated (mode : String)
  | autoSaved
  | confirmAsked (fromMode toMode : String)
  | notified (mode : String)
deriving DecidableEq, Repr

/-- `isDirty()`: defer to the configured predicate, else the local flag. -/
def isDirty (opts : ModeOptions) (st : ModeState) : Bool :=
  opts.hasUnsavedChanges.getD st.dirty

/-- `createOrGetContext(mode)`: record the context's creation. -/
def createOrGetContext (st : ModeState) (mode : String) : ModeState :=
  if mode ∈ st.contexts then st else { st with contexts := st.contexts ++ [mode] }

/-- `handleUnsavedChanges(target)` from the source. -/
def handleUnsavedChanges (opts : ModeOptions) (st : ModeState) (target : String) :
    ModeState × Bool × List ModeEvent :=
  if !isDirty opts st then (st, true, [])
  else if opts.autoSaveConfigured then ({ st with dirty := false }, true, [.autoSaved])
  else
    match opts.confirmResult with
    | some ok =>
      ((if ok then { st with dirty := false } else st), ok, [.confirmAsked st.mode target])
    | none => (st, true, [])

/-- `switchMode(target)` from the source: same-mode no-op, context
creation for the target, the unsaved-changes gate, then deactivate /
activate hooks, mode commit and listener notification. -/
def switchMode (opts : ModeOptions) (st : ModeState) (target : String) :
    ModeState × Bool × List ModeEvent :=
  if target = st.mode then (st, true, [])
  else
    let st1 := createOrGetContext st target
    let gate := handleUnsavedChanges opts st1 target
    if !gate.2.1 then (gate.1, false, gate.2.2)
    else
      ({ gate.1 with mode := target }, true,
        gate.2.2 ++ [.deactivated st.mode, .activated target] ++
          List.replicate st.listeners (.notified target))

/-!
## Traversal spec helpers

`nodeEntries`/`entriesList` list the `(path, node)` pairs the validator
visits, in its pre-order, depth-first document order; the functions
below restate the validator's id bookkeeping over that flat list.
-/

mutual

def nodeEntries (node : JValue) (path : String) : List (String × JValue) :=
  match node with
  | .obj fs =>
    (path, .obj fs) ::
      (match hc : lookupF fs "children" with
       | some (.arr cs) => entriesList cs (path ++ ".children") 0
       | _ => [])
  | _ => []
termination_by jsize node
decreasing_by
  have h := lookupF_jsize hc
  simp [jsize] at h ⊢
  omega

def entriesList (xs : List JValue) (base : String) (i : Nat) : List (String × JValue) :=
  match xs with
  | [] => []
  | x :: rest => nodeEntries x (idxPath base i) ++ entriesList rest base (i + 1)
termination_by jsizeL xs + 1
decreasing_by
  · simp [jsizeL]
    omega
  · have := jsize_pos x
    simp [jsizeL]
    omega

end

/-- The id a visited node contributes to uniqueness tracking: a string
id with non-blank trim. -/
def validNodeId (node : JValue) : Option String :=
  match propD node "id" with
  | .str s => if blank s then none else some s
  | _ => none

/-- One step of the seen-id set along the traversal. -/
def stepSeen (seen : List String) (e : String × JValue) : List String :=
  match validNodeId e.2 with
  | some x => if x ∈ seen then seen else seen ++ [x]
  | none => seen

def afterSeen (seen : List String) (entries : List (String × JValue)) : List String :=
  entries.foldl stepSeen seen

/-- The `(path, id)` pairs the validator flags as duplicate ids, in
traversal order, starting from a given seen set. -/
def dupFlags (seen : List String) : List (String × JValue) → List (String × String)
  | [] => []
  | e :: rest =>
    match validNodeId e.2 with
    | some x =>
      if x ∈ seen then (e.1, x) :: dupFlags seen rest
      else dupFlags (seen ++ [x]) rest
    | none => dupFlags seen rest

/-- The asset ids visible to node reference resolution: every assets
entry that parsed as a record with a string `id`, whatever its other
fields look like. -/
def bestEffortIds (assets : List JValue) : List String :=
  assets.filterMap fun a =>
    match a with
    | .obj fs =>
      match getF fs "id" with
      | .str s => some s
      | _ => none
    | _ => none

/-- Whether a visited node carries an asset reference with a well-formed
`assetId` that resolves to no asset, and the `(path, id)` pair of the
resulting error. -/
def nodeMissing (assets : List JValue) (e : String × JValue) : Option (String × String) :=
  match e.2 with
  | .obj fs =>
    match getF fs "asset" with
    | .obj g =>
      match getF g "assetId" with
      | .str a =>
        if blank a then none
        else if a ∈ bestEffortIds assets then none
        else some (e.1 ++ ".asset", a)
      | _ => none
    | _ => none
  | _ => none

def missingFlags (assets : List JValue) (entries : List (String × JValue)) :
    List (String × String) :=
  entries.filterMap (nodeMissing assets)

/-- No assets entry is nullish — the condition under which the asset
reference lookup (and hence the whole validator) cannot throw. -/
def assetsOk (assets : List JValue) : Bool :=
  assets.all fun a => !nullish a


/-!
## Mode manager theorems (C7)
-/

theorem createOrGetContext_mode (st : ModeState) (m : String) :
    (createOrGetContext st m).mode = st.mode := by
  unfold createOrGetContext
  split <;> rfl

theorem handleUnsavedChanges_blocked (opts : ModeOptions) (st : ModeState) (target : String)
    (hd : opts.hasUnsavedChanges = some true)
    (ha : opts.autoSaveConfigured = false)
    (hc : opts.confirmResult = some false) :
    handleUnsavedChanges opts st target = (st, false, [.confirmAsked st.mode target]) := by
  unfold handleUnsavedChanges isDirty
  rw [hd, ha, hc]
  simp

/-- Claim C7: for a Mode State Machine in mode `'edit'` whose dirty check
reports unsaved changes, with no autosave policy configured and a confirm
policy that resolves `false`, `switchMode('play')` returns `false`, the
current mode remains `'edit'`, no activate or deactivate hook fires, and
no subscriber is notified. -/
theorem mode_gate_blocks_switch (opts : ModeOptions) (st : ModeState)
    (hm : st.mode = "edit")
    (hd : opts.hasUnsavedChanges = some true)
    (ha : opts.autoSaveConfigured = false)
    (hc : opts.confirmResult = some false) :
    (switchMode opts st "play").2.1 = false ∧
    (switchMode opts st "play").1.mode = "edit" ∧
    ∀ e ∈ (switchMode opts st "play").2.2,
      (∀ m, e ≠ ModeEvent.activated m) ∧ (∀ m, e ≠ ModeEvent.deactivated m) ∧
        (∀ m, e ≠ ModeEvent.notified m) := by
  unfold switchMode
  rw [if_neg (by rw [hm]; decide)]
  simp only [handleUnsavedChanges_blocked opts, hd, ha, hc, createOrGetContext_mode]
  simp [createOrGetContext_mode, hm]

/-- Witness for C7 at a concrete machine. -/
theorem mode_gate_blocks_switch_witness :
    (switchMode ⟨some true, false, some false⟩ ⟨"edit", true, ["edit"], 2⟩ "play").2.1 = false ∧
    (switchMode ⟨some true, false, some false⟩ ⟨"edit", true, ["edit"], 2⟩ "play").1.mode = "edit" ∧
    ∀ e ∈ (switchMode ⟨some true, false, some false⟩ ⟨"edit", true, ["edit"], 2⟩ "play").2.2,
      (∀ m, e ≠ ModeEvent.activated m) ∧ (∀ m, e ≠ ModeEvent.deactivated m) ∧
        (∀ m, e ≠ ModeEvent.notified m) :=
  mode_gate_blocks_switch ⟨some true, false, some false⟩ ⟨"edit", true, ["edit"], 2⟩
    rfl rfl rfl rfl

/-!
## Selection manager theorems (C8, C9)
-/

theorem mem_foldl_insertUnique (l : List (Option String)) (acc : List (Option String))
    (x : Option String) :
    x ∈ l.foldl insertUnique acc ↔ x ∈ acc ∨ x ∈ l := by
  induction l generalizing acc with
  | nil => simp
  | cons y ys ih =>
    simp only [List.foldl_cons, ih, insertUnique]
    by_cases hy : y ∈ acc
    · simp only [if_pos hy, List.mem_cons]
      constructor
      · rintro (h | h)
        · exact Or.inl h
        · exact Or.inr (Or.inr h)
      · rintro (h | h | h)
        · exact Or.inl h
        · exact Or.inl (h ▸ hy)
        · exact Or.inr h
    · simp only [if_neg hy, List.mem_append, List.mem_singleton, List.mem_cons]
      tauto

theorem mem_jsSetOfList (l : List (Option String)) (x : Option String) :
    x ∈ jsSetOfList l ↔ x ∈ l := by
  simp [jsSetOfList, mem_foldl_insertUnique]

/-- Claim C9: `setSelection(ids, focusLast)` makes the selection exactly
the set of the provided ids; with `focusLast` the last provided id becomes
focused; without it, a (truthy) previous focus is preserved when still a
member of the new selection and is otherwise reassigned to the first
provided id.  (A falsy previous focus — `undefined`, or the empty-string
id, which JavaScript's truthiness test treats as no focus — is left
unchanged.) -/
theorem setSelection_spec (st : SelectionState) (ids : List String) (focusLast : Bool) :
    ((setSelection st ids focusLast).selection = jsSetOfList (ids.map some)) ∧
    (∀ x : String, some x ∈ (setSelection st ids focusLast).selection ↔ x ∈ ids) ∧
    (focusLast = true → (setSelection st ids focusLast).focused = ids.getLast?) ∧
    (focusLast = false → focusTruthy st.focused = true →
      st.focused ∈ jsSetOfList (ids.map some) →
      (setSelection st ids focusLast).focused = st.focused) ∧
    (focusLast = false → focusTruthy st.focused = true →
      st.focused ∉ jsSetOfList (ids.map some) →
      (setSelection st ids focusLast).focused = ids.head?) ∧
    (focusLast = false → focusTruthy st.focused = false →
      (setSelection st ids focusLast).focused = st.focused) := by
  simp only [setSelection]
  cases focusLast with
  | true =>
    refine ⟨rfl, ?_, fun _ => rfl, by simp, by simp, by simp⟩
    intro x
    simp [mem_jsSetOfList]
  | false =>
    by_cases ht : focusTruthy st.focused
    · by_cases hmem : st.focused ∈ jsSetOfList (ids.map some)
      · rw [if_neg (by simp), if_neg (by simp [ht, hmem])]
        refine ⟨rfl, ?_, by simp, fun _ _ _ => rfl, by simp [hmem], by simp [ht]⟩
        intro x
        simp [mem_jsSetOfList]
      · rw [if_neg (by simp), if_pos (by simp [ht, hmem])]
        refine ⟨rfl, ?_, by simp, by simp [hmem], fun _ _ _ => rfl, by simp [ht]⟩
        intro x
        simp [mem_jsSetOfList]
    · rw [if_neg (by simp), if_neg (by simp [ht])]
      refine ⟨rfl, ?_, by simp, by simp [ht], by simp [ht], fun _ _ => rfl⟩
      intro x
      simp [mem_jsSetOfList]

/-- Witness for C9 at a concrete selection state. -/
theorem setSelection_spec_witness :
    (setSelection ⟨[some "x"], some "x"⟩ ["p", "q"] false).focused = some "p" ∧
    ∀ y : String,
      some y ∈ (setSelection ⟨[some "x"], some "x"⟩ ["p", "q"] false).selection ↔
        y ∈ ["p", "q"] := by
  refine ⟨?_, (setSelection_spec ⟨[some "x"], some "x"⟩ ["p", "q"] false).2.1⟩
  have h := (setSelection_spec ⟨[some "x"], some "x"⟩ ["p", "q"] false).2.2.2.2.1
    rfl (by decide) (by decide)
  simpa using h


/-- Counterexample to claim C8 as stated.  With `order = ["a","b","c"]`:
(i) unfocused and `direction = -1`, the claimed index
`(currentIndex + direction + len) mod len = (-1 - 1 + 3) mod 3 = 1`
names `"b"`, but the code takes index 0 (`currentIndex === -1 ? 0 : …`)
and focuses `"a"`; (ii) focused on `"a"` with `direction = -4`, the
claimed index `(0 - 4 + 3) mod 3 = 2` names `"c"`, but JavaScript's `%`
returns `-1`, `order[-1]` is `undefined`, and focus is cleared. -/
theorem focusNext_claim_counterexample :
    ((-1 : Int) + (-1) + 3) % 3 = 1 ∧
    ["a", "b", "c"].get? (1 : Nat) = some "b" ∧
    (focusNext ⟨[], none⟩ ["a", "b", "c"] (-1)).2 = some "a" ∧
    ((0 : Int) + (-4) + 3) % 3 = 2 ∧
    ["a", "b", "c"].get? (2 : Nat) = some "c" ∧
    jsIndexOf ["a", "b", "c"] "a" = 0 ∧
    (focusNext ⟨[some "a"], some "a"⟩ ["a", "b", "c"] (-4)).2 = none := by
  decide

/-- Claim C8 (amended): for a non-empty `order` of length `len`,
`focusNext(order, direction)` computes `currentIndex` as
`order.indexOf(focused)` when a truthy id is focused and `-1` otherwise;
when `currentIndex = -1` the next index is `0`, and otherwise — provided
`currentIndex + direction + len ≥ 0`, which holds in particular for
`direction ∈ {-1, +1}` — the next index is
`(currentIndex + direction + len) mod len`; the target id replaces the
selection (a single-member selection) and becomes focused.  When `order`
is empty, both selection and focus are cleared. -/
theorem focusNext_spec (st : SelectionState) (order : List String) (direction : Int) :
    (order = [] → focusNext st order direction = (⟨[], none⟩, none)) ∧
    (order ≠ [] →
      ∀ ci : Int,
        ci = (if focusTruthy st.focused then jsIndexOf order (st.focused.getD "") else -1) →
        (ci = -1 →
          ∃ nid, order.get? 0 = some nid ∧
            focusNext st order direction = (⟨[some nid], some nid⟩, some nid)) ∧
        (ci ≠ -1 → 0 ≤ ci + direction + order.length →
          ∃ nid,
            order.get? ((ci + direction + order.length) % order.length).toNat = some nid ∧
            focusNext st order direction = (⟨[some nid], some nid⟩, some nid))) := by
  constructor
  · intro h
    subst h
    rfl
  · intro hne ci hci
    cases order with
    | nil => exact absurd rfl hne
    | cons a rest =>
      have hciEq : (match st.focused with
          | some s => if s ≠ "" then jsIndexOf (a :: rest) s else -1
          | none => (-1 : Int)) = ci := by
        rw [hci]
        cases st.focused with
        | none => simp [focusTruthy]
        | some s => by_cases hs : s = "" <;> simp [focusTruthy, hs]
      constructor
      · intro h1
        subst h1
        simp only [focusNext]
        rw [hciEq]
        simp only [if_pos rfl]
        exact ⟨a, by simp, by norm_num⟩
      · intro h1 hsum
        simp only [focusNext]
        rw [hciEq]
        have hlen : (0 : Int) < (a :: rest).length := by
          simp
        have htm : (ci + direction + ((a :: rest).length : Int)).tmod ((a :: rest).length : Int)
            = (ci + direction + ((a :: rest).length : Int)) % ((a :: rest).length : Int) :=
          Int.tmod_eq_emod hsum (le_of_lt hlen)
        have hge : 0 ≤ (ci + direction + ((a :: rest).length : Int)) % ((a :: rest).length : Int) :=
          Int.emod_nonneg _ (ne_of_gt hlen)
        have hlt : (ci + direction + ((a :: rest).length : Int)) % ((a :: rest).length : Int)
            < ((a :: rest).length : Int) :=
          Int.emod_lt_of_pos _ hlen
        have hidx : ((ci + direction + ((a :: rest).length : Int)) %
            ((a :: rest).length : Int)).toNat < (a :: rest).length := by
          omega
        simp only [if_neg h1, htm]
        rw [if_neg (by omega)]
        refine ⟨(a :: rest).get ⟨_, hidx⟩, ?_, ?_⟩
        · exact List.get?_eq_get hidx
        · rw [List.get?_eq_get hidx]

/-- Witness for the amended C8, both branches: from focus `"a"` in
`["a","b","c"]`, direction `-1` lands on index `(0 - 1 + 3) mod 3 = 2`,
id `"c"`; and unfocused in the singleton `["a"]` with direction `-1`,
the next index is `0` unconditionally and `"a"` is focused. -/
theorem focusNext_spec_witness :
    (∃ nid,
      ["a", "b", "c"].get? (((0 : Int) + (-1) + (["a", "b", "c"].length : Int)) %
            (["a", "b", "c"].length : Int)).toNat = some nid ∧
      focusNext ⟨[some "a"], some "a"⟩ ["a", "b", "c"] (-1) =
        (⟨[some nid], some nid⟩, some nid)) ∧
    (∃ nid, ["a"].get? 0 = some nid ∧
      focusNext ⟨[], none⟩ ["a"] (-1) = (⟨[some nid], some nid⟩, some nid)) :=
  ⟨((focusNext_spec ⟨[some "a"], some "a"⟩ ["a", "b", "c"] (-1)).2 (by decide) 0
      (by decide)).2 (by decide) (by decide),
    ((focusNext_spec ⟨[], none⟩ ["a"] (-1)).2 (by decide) (-1) (by decide)).1 rfl⟩


/-!
## Serializer theorems (C5)
-/

/-- Claim C5: `deserializeWorld` treats an absent `version` as `0`
(behaving exactly as if the document carried `version: 0`); any parsed
numeric version above the supported version 1 fails with the
unsupported-version error whatever the body contains — no field
validation runs; a version that does not exceed 1 proceeds to body
validation, whose outcome (success, validation failure, or the
reference-check TypeError) decides the result. -/
theorem deserializeWorld_version_gate :
    (∀ fs, getF fs "version" = .undef →
      deserializeWorld (.obj fs) =
        deserializeWorld (.obj (setField fs "version" (.num (.fin 0))))) ∧
    (∀ fs n, getF fs "version" = .num n → numGtOne n = true →
      deserializeWorld (.obj fs) =
        .error ("Cannot load future schema version " ++ renderNum n)) ∧
    (∀ fs v, getF fs "version" = v → v ≠ .undef → versionExceeds v = false →
      (∀ es, validateWorldDocument (.obj fs) = .ok (true, es) →
        deserializeWorld (.obj fs) = .ok (.obj (setField fs "version" (.num (.fin 1))))) ∧
      (∀ errs, validateWorldDocument (.obj fs) = .ok (false, errs) →
        deserializeWorld (.obj fs) = .error (invalidMessage errs)) ∧
      (∀ e, validateWorldDocument (.obj fs) = .error e →
        deserializeWorld (.obj fs) = .error e)) := by
  refine ⟨?_, ?_, ?_⟩
  · intro fs h
    simp [deserializeWorld, h, getF_setField_self, setField_setField]
  · intro fs n h hgt
    simp [deserializeWorld, h, versionExceeds, hgt, renderVersion]
  · intro fs v h hne hve
    refine ⟨?_, ?_, ?_⟩
    · intro es hx
      simp [deserializeWorld, h, hne, hve, hx]
    · intro errs hx
      simp [deserializeWorld, h, hne, hve, hx]
    · intro e hx
      simp [deserializeWorld, h, hne, hve, hx]

/-- Witness for C5: the three clauses at concrete documents — a
version-less document behaves like `version: 0`; `version: 999` is
rejected as a future schema version even though the body (`nodes`
missing) would fail validation; `version: 1` with a valid body is
accepted and stamped. -/
theorem deserializeWorld_version_gate_witness :
    deserializeWorld (.obj [("nodes", .arr [])]) =
      deserializeWorld (.obj (setField [("nodes", .arr [])] "version" (.num (.fin 0)))) ∧
    deserializeWorld (.obj [("version", .num (.fin 999))]) =
      .error ("Cannot load future schema version " ++ renderNum (.fin 999)) ∧
    deserializeWorld (.obj [("version", .num (.fin 1)), ("nodes", .arr [])]) =
      .ok (.obj (setField [("version", .num (.fin 1)), ("nodes", .arr [])] "version"
        (.num (.fin 1)))) := by
  refine ⟨?_, ?_, ?_⟩
  · exact deserializeWorld_version_gate.1 [("nodes", .arr [])] (by decide)
  · exact deserializeWorld_version_gate.2.1 [("version", .num (.fin 999))] (.fin 999) (by decide)
      (by decide)
  · refine (deserializeWorld_version_gate.2.2 [("version", .num (.fin 1)), ("nodes", .arr [])]
      (.num (.fin 1)) (by decide) (by decide) (by decide)).1 [] ?_
    simp [validateWorldDocument, validateNodeList, validateAssets, getF, lookupF]


/-!
## Tree index theorems (C6, C10)
-/

theorem propD_objSet_self (v : JValue) (key : String) (w : JValue) :
    propD (objSet v key w) key = w := by
  cases v <;> simp [objSet, propD, getF, lookupF_setField_self, lookupF]

theorem updateNodeById_ok_false {nodes : JValue} {id : String} {f : JValue → JValue}
    {r : JValue} (h : updateNodeById nodes id f = .ok (r, false)) : r = nodes := by
  cases nodes with
  | arr xs =>
    simp only [updateNodeById] at h
    cases hl : updateList xs id f with
    | error e => rw [hl] at h; cases h
    | ok p =>
      obtain ⟨ys, ch⟩ := p
      rw [hl] at h
      cases ch with
      | true => simp at h
      | false => simp at h; exact h.symm
  | undef => simp [updateNodeById] at h
  | null => simp [updateNodeById] at h
  | bool b => simp [updateNodeById] at h
  | num n => simp [updateNodeById] at h
  | str s => simp [updateNodeById] at h
  | obj fs => simp [updateNodeById] at h

theorem tidyList_mem {xs : List JValue} (h : tidyList xs = true) :
    ∀ x ∈ xs, tidyOne x = true := by
  induction xs with
  | nil => intro x hx; cases hx
  | cons y ys ih =>
    rw [tidyList] at h
    simp only [Bool.and_eq_true] at h
    intro x hx
    cases hx with
    | head => exact h.1
    | tail _ hx => exact ih h.2 x hx

theorem hasMatchList_mem {xs : List JValue} {id : String} (h : hasMatchList xs id = false) :
    ∀ x ∈ xs, hasMatchOne x id = false := by
  induction xs with
  | nil => intro x hx; cases hx
  | cons y ys ih =>
    rw [hasMatchList] at h
    simp only [Bool.or_eq_false_iff] at h
    intro x hx
    cases hx with
    | head => exact h.1
    | tail _ hx => exact ih h.2 x hx

-- The joint no-match invariant, by strong induction on the size measure:
-- a tidy forest without any id match is returned unchanged with
-- `changed = false` at every level of the recursion.
theorem update_noMatch_all (m : Nat) :
    (∀ (nodes : JValue) (id : String) (f : JValue → JValue), jsize nodes ≤ m →
      tidyForest nodes = true → hasMatch nodes id = false →
      updateNodeById nodes id f = .ok (nodes, false)) ∧
    (∀ (xs : List JValue) (id : String) (f : JValue → JValue), jsizeL xs ≤ m →
      tidyList xs = true → hasMatchList xs id = false →
      updateList xs id f = .ok (xs, false)) ∧
    (∀ (node : JValue) (id : String) (f : JValue → JValue), jsize node ≤ m →
      tidyOne node = true → hasMatchOne node id = false →
      updateOne node id f = .ok (node, false)) := by
  induction m using Nat.strong_induction_on with
  | _ m ih =>
    refine ⟨?_, ?_, ?_⟩
    · intro nodes id f hsz ht hnm
      cases nodes with
      | arr xs =>
        rw [hasMatch] at hnm
        rw [tidyForest] at ht
        simp only [jsize] at hsz
        have hm1 : m - 1 < m := by omega
        have hl := (ih (m - 1) hm1).2.1 xs id f (by omega) ht hnm
        rw [updateNodeById, hl]
        rfl
      | undef => simp [tidyForest] at ht
      | null => simp [tidyForest] at ht
      | bool b => simp [tidyForest] at ht
      | num n => simp [tidyForest] at ht
      | str s => simp [tidyForest] at ht
      | obj fs => simp [tidyForest] at ht
    · intro xs id f hsz ht hnm
      cases xs with
      | nil => rw [updateList]
      | cons x rest =>
        rw [tidyList] at ht
        rw [hasMatchList] at hnm
        simp only [Bool.and_eq_true] at ht
        simp only [Bool.or_eq_false_iff] at hnm
        simp only [jsizeL] at hsz
        have hm1 : m - 1 < m := by
          have := jsize_pos x
          omega
        have h1 := (ih (m - 1) hm1).2.2 x id f (by omega) ht.1 hnm.1
        have h2 := (ih (m - 1) hm1).2.1 rest id f (by omega) ht.2 hnm.2
        rw [updateList, h1, h2]
        rfl
    · intro node id f hsz ht hnm
      rw [tidyOne] at ht
      rw [hasMatchOne] at hnm
      simp only [Bool.and_eq_true, Bool.not_eq_true'] at ht
      simp only [Bool.or_eq_false_iff] at hnm
      rw [updateOne]
      rw [if_neg (by rw [ht.1]; exact Bool.false_ne_true)]
      have hmatch : (propD node "id" == JValue.str id) = false := hnm.1
      by_cases hc : truthy (propD node "children") = true
      · have hsub : jsize (propD node "children") < jsize node := propD_truthy_jsize _ _ hc
        have hm1 : m - 1 < m := by
          have := jsize_pos node
          omega
        have htf : tidyForest (propD node "children") = true := by
          have := ht.2
          rw [dif_pos hc] at this
          exact this
        have hnf : hasMatch (propD node "children") id = false := by
          have := hnm.2
          rw [dif_pos hc] at this
          exact this
        have hrec := (ih (m - 1) hm1).1 (propD node "children") id f (by omega) htf hnf
        simp only [hmatch, Bool.false_and, if_false, dif_pos hc, hrec, bne_self_eq_false,
          Bool.or_self, Bool.false_or]
        simp
      · have hc' : truthy (propD node "children") = false := by
          cases h : truthy (propD node "children")
          · rfl
          · exact absurd h hc
        simp only [hmatch, Bool.false_and, if_false, dif_neg hc, bne_self_eq_false]
        simp

theorem updateList_shape {xs : List JValue} {id : String} {f : JValue → JValue}
    {ys : List JValue} {ch : Bool} (h : updateList xs id f = .ok (ys, ch)) :
    ys.length = xs.length ∧
    ∀ i (hi : i < xs.length) (hi' : i < ys.length),
      ∃ ci, updateOne (xs.get ⟨i, hi⟩) id f = .ok (ys.get ⟨i, hi'⟩, ci) := by
  induction xs generalizing ys ch with
  | nil =>
    rw [updateList] at h
    cases h
    exact ⟨rfl, fun i hi => absurd hi (by simp)⟩
  | cons x rest ih =>
    rw [updateList] at h
    cases h1 : updateOne x id f with
    | error e => rw [h1] at h; cases h
    | ok p =>
      obtain ⟨y, c1⟩ := p
      rw [h1] at h
      cases h2 : updateList rest id f with
      | error e => rw [h2] at h; cases h
      | ok q =>
        obtain ⟨ys2, c2⟩ := q
        rw [h2] at h
        cases h
        obtain ⟨hlen, helem⟩ := ih h2
        refine ⟨by simp [hlen], ?_⟩
        intro i hi hi'
        cases i with
        | zero => exact ⟨c1, h1⟩
        | succ j =>
          have hj : j < rest.length := by simpa using hi
          have hj' : j < ys2.length := by simpa using hi'
          simpa using helem j hj hj'


theorem updateOne_ok_false {node : JValue} {id : String} {f : JValue → JValue}
    {y : JValue} (h : updateOne node id f = .ok (y, false)) : y = node := by
  rw [updateOne] at h
  by_cases hn : nullish node = true
  · rw [if_pos hn] at h
    cases h
  · rw [if_neg hn] at h
    by_cases hc : truthy (propD node "children") = true
    · rw [dif_pos hc] at h
      cases hrec : updateNodeById (propD node "children") id f with
      | error e => rw [hrec] at h; cases h
      | ok p =>
        obtain ⟨children, cc⟩ := p
        rw [hrec] at h
        rw [Except.ok.injEq, Prod.mk.injEq] at h
        obtain ⟨hy, hch⟩ := h
        have hm0 : ((propD node "id" == JValue.str id) &&
            ((if (propD node "id" == JValue.str id) = true then
                match f node with
                | .undef => node
                | .null => node
                | v => v
              else node) != node)) = false := by
          cases hb : ((propD node "id" == JValue.str id) &&
              ((if (propD node "id" == JValue.str id) = true then
                  match f node with
                  | .undef => node
                  | .null => node
                  | v => v
                else node) != node))
          · rfl
          · rw [hb] at hch
            simp at hch
        have hcc : cc = false := by
          cases hb : cc
          · rfl
          · rw [hb] at hch
            simp at hch
        have hchild : children = propD node "children" := updateNodeById_ok_false (hcc ▸ hrec)
        rw [← hy]
        simp only [Bool.and_eq_false_iff] at hm0
        cases hm0 with
        | inl hmm =>
          simp only [hmm, Bool.false_eq_true, if_false, hchild, bne_self_eq_false, Bool.or_self]
        | inr hnn =>
          simp only [bne_eq_false_iff_eq] at hnn
          simp only [hnn, hchild, bne_self_eq_false, Bool.or_self]
          simp [hnn]
    · rw [dif_neg hc] at h
      rw [Except.ok.injEq, Prod.mk.injEq] at h
      obtain ⟨hy, hch⟩ := h
      have hm0 : ((propD node "id" == JValue.str id) &&
          ((if (propD node "id" == JValue.str id) = true then
              match f node with
              | .undef => node
              | .null => node
              | v => v
            else node) != node)) = false := by
        cases hb : ((propD node "id" == JValue.str id) &&
            ((if (propD node "id" == JValue.str id) = true then
                match f node with
                | .undef => node
                | .null => node
                | v => v
              else node) != node))
        · rfl
        · rw [hb] at hch
          simp at hch
      rw [← hy]
      simp only [Bool.and_eq_false_iff] at hm0
      cases hm0 with
      | inl hmm =>
        simp only [hmm, Bool.false_eq_true, if_false, bne_self_eq_false]
      | inr hnn =>
        simp only [bne_eq_false_iff_eq] at hnn
        simp only [hnn, bne_self_eq_false]
        simp [hnn]

theorem updateList_ok_false {xs : List JValue} {id : String} {f : JValue → JValue}
    {ys : List JValue} (h : updateList xs id f = .ok (ys, false)) : ys = xs := by
  induction xs generalizing ys with
  | nil =>
    rw [updateList] at h
    cases h
    rfl
  | cons x rest ih =>
    rw [updateList] at h
    cases h1 : updateOne x id f with
    | error e => rw [h1] at h; cases h
    | ok p =>
      obtain ⟨y, c1⟩ := p
      rw [h1] at h
      cases h2 : updateList rest id f with
      | error e => rw [h2] at h; cases h
      | ok q =>
        obtain ⟨ys2, c2⟩ := q
        rw [h2] at h
        rw [Except.ok.injEq, Prod.mk.injEq] at h
        obtain ⟨hy, hc⟩ := h
        have hc1 : c1 = false := by
          cases hb : c1
          · rfl
          · rw [hb] at hc
            simp at hc
        have hc2 : c2 = false := by
          cases hb : c2
          · rfl
          · rw [hb] at hc
            simp at hc
        have hyx : y = x := updateOne_ok_false (hc1 ▸ h1)
        have hys : ys2 = rest := ih (hc2 ▸ h2)
        rw [← hy, hyx, hys]


/-- Claim C6: on a well-formed forest, `updateNodeById(forest, id, updater)`
returns `changed = false` together with the unchanged input forest when no
node in the forest has the given id (JavaScript returns the very same
array reference; the functional model states the structural analogue); and
when the update returns a forest, every element whose subtree contains no
id match comes back unchanged (reference sharing of off-path sibling
subtrees, stated structurally, for the root list and — since the statement
quantifies over every list — for every nested `children` list the
recursion processes). -/
theorem updateNodeById_structure_sharing :
    (∀ (nodes : JValue) (id : String) (f : JValue → JValue),
      tidyForest nodes = true → hasMatch nodes id = false →
      updateNodeById nodes id f = .ok (nodes, false)) ∧
    (∀ (xs : List JValue) (id : String) (f : JValue → JValue) (out : JValue) (ch : Bool),
      tidyForest (.arr xs) = true →
      updateNodeById (.arr xs) id f = .ok (out, ch) →
      ∃ ys, out = .arr ys ∧ ys.length = xs.length ∧
        ∀ i (hi : i < xs.length) (hi' : i < ys.length),
          hasMatchOne (xs.get ⟨i, hi⟩) id = false →
          ys.get ⟨i, hi'⟩ = xs.get ⟨i, hi⟩) := by
  constructor
  · intro nodes id f ht hnm
    exact (update_noMatch_all (jsize nodes)).1 nodes id f le_rfl ht hnm
  · intro xs id f out ch ht h
    rw [updateNodeById] at h
    cases hl : updateList xs id f with
    | error e => rw [hl] at h; cases h
    | ok p =>
      obtain ⟨ys0, ch0⟩ := p
      rw [hl] at h
      rw [Except.ok.injEq, Prod.mk.injEq] at h
      obtain ⟨hout, hch⟩ := h
      cases ch0 with
      | false =>
        refine ⟨xs, by simp [← hout], rfl, ?_⟩
        intro i hi hi' _
        rfl
      | true =>
        obtain ⟨hlen, helem⟩ := updateList_shape hl
        refine ⟨ys0, by simp [← hout], hlen, ?_⟩
        intro i hi hi' hnm1
        obtain ⟨ci, hone⟩ := helem i hi hi'
        have htone : tidyOne (xs.get ⟨i, hi⟩) = true :=
          tidyList_mem (by rw [tidyForest] at ht; exact ht) _ (xs.get_mem i hi)
        have hfix := (update_noMatch_all (jsize (xs.get ⟨i, hi⟩))).2.2
          (xs.get ⟨i, hi⟩) id f le_rfl htone hnm1
        rw [hfix] at hone
        rw [Except.ok.injEq, Prod.mk.injEq] at hone
        exact hone.1.symm

/-- Witness for C6 at a concrete forest: no node has id `"zz"`, so the
forest comes back unchanged with `changed = false`. -/
theorem updateNodeById_structure_sharing_witness :
    updateNodeById
      (.arr [.obj [("id", .str "a"), ("children", .arr [.obj [("id", .str "b")]])],
        .obj [("id", .str "c")]]) "zz" (fun n => n) =
    .ok (.arr [.obj [("id", .str "a"), ("children", .arr [.obj [("id", .str "b")]])],
      .obj [("id", .str "c")]], false) :=
  updateNodeById_structure_sharing.1 _ "zz" _
    (by simp [tidyForest, tidyList, tidyOne, nullish, propD, getF, lookupF, truthy])
    (by simp [hasMatch, hasMatchList, hasMatchOne, propD, getF, lookupF, truthy])

-- The per-element content of claim C10: at a matched node, the returned
-- node's `children` field is the original node's children value, itself
-- recursively processed when truthy — never whatever the updater returned.
theorem updateOne_children_protected {node : JValue} {id : String} {f : JValue → JValue}
    {y : JValue} {c : Bool} (ht : tidyOne node = true)
    (h : updateOne node id f = .ok (y, c)) :
    (truthy (propD node "children") = true →
      ∃ r rc, updateNodeById (propD node "children") id f = .ok (r, rc) ∧
        propD y "children" = r) ∧
    (truthy (propD node "children") = false →
      propD y "children" = propD node "children") := by
  rw [tidyOne] at ht
  simp only [Bool.and_eq_true, Bool.not_eq_true'] at ht
  rw [updateOne] at h
  rw [if_neg (by rw [ht.1]; exact Bool.false_ne_true)] at h
  by_cases hc : truthy (propD node "children") = true
  · rw [dif_pos hc] at h
    cases hrec : updateNodeById (propD node "children") id f with
    | error e => rw [hrec] at h; cases h
    | ok p =>
      obtain ⟨r, rc⟩ := p
      rw [hrec] at h
      rw [Except.ok.injEq, Prod.mk.injEq] at h
      obtain ⟨hy, hcc⟩ := h
      refine ⟨fun _ => ⟨r, rc, rfl, ?_⟩, fun hcf => absurd hc (by simp [hcf])⟩
      rw [← hy]
      by_cases hcond : ((propD node "children" != r) ||
          ((if (propD node "id" == JValue.str id) = true then
              match f node with
              | .undef => node
              | .null => node
              | v => v
            else node) != node)) = true
      · rw [if_pos hcond]
        exact propD_objSet_self _ _ _
      · rw [if_neg hcond]
        simp only [Bool.or_eq_true, not_or, Bool.not_eq_true, bne_eq_false_iff_eq] at hcond
        rw [hcond.2, hcond.1]
  · rw [dif_neg hc] at h
    rw [Except.ok.injEq, Prod.mk.injEq] at h
    obtain ⟨hy, hcc⟩ := h
    refine ⟨fun hct => absurd hct hc, fun _ => ?_⟩
    rw [← hy]
    by_cases hcond : ((if (propD node "id" == JValue.str id) = true then
        match f node with
        | .undef => node
        | .null => node
        | v => v
      else node) != node) = true
    · rw [if_pos hcond]
      exact propD_objSet_self _ _ _
    · rw [if_neg hcond]
      simp only [Bool.not_eq_true, bne_eq_false_iff_eq] at hcond
      rw [hcond]

/-- Claim C10: `updateNodeById` never lets the updater change a matched
node's children — in the returned forest, every element whose original
carried the target id has a `children` field equal to the original
children value, recursively processed for the same id when truthy; any
children value the updater returned is overwritten (the conclusion holds
for every updater `f`).  The updater-returns-an-object-or-nullish
hypothesis keeps the model of `{ ...nextNode, children }` faithful
(JavaScript spreads of strings/arrays would also copy index properties). -/
theorem updateNodeById_overwrites_updater_children :
    ∀ (xs : List JValue) (id : String) (f : JValue → JValue) (out : JValue) (ch : Bool),
      tidyForest (.arr xs) = true →
      (∀ v, isObject (f v) = true ∨ f v = .null ∨ f v = .undef) →
      updateNodeById (.arr xs) id f = .ok (out, ch) →
      ∃ ys, out = .arr ys ∧ ys.length = xs.length ∧
        ∀ i (hi : i < xs.length) (hi' : i < ys.length),
          propD (xs.get ⟨i, hi⟩) "id" = .str id →
          ((truthy (propD (xs.get ⟨i, hi⟩) "children") = true →
            ∃ r rc, updateNodeById (propD (xs.get ⟨i, hi⟩) "children") id f = .ok (r, rc) ∧
              propD (ys.get ⟨i, hi'⟩) "children" = r) ∧
          (truthy (propD (xs.get ⟨i, hi⟩) "children") = false →
            propD (ys.get ⟨i, hi'⟩) "children" = propD (xs.get ⟨i, hi⟩) "children")) := by
  intro xs id f out ch ht _hf h
  rw [updateNodeById] at h
  cases hl : updateList xs id f with
  | error e => rw [hl] at h; cases h
  | ok p =>
    obtain ⟨ys0, ch0⟩ := p
    rw [hl] at h
    rw [Except.ok.injEq, Prod.mk.injEq] at h
    obtain ⟨hout, hch⟩ := h
    have htl : tidyList xs = true := by rw [tidyForest] at ht; exact ht
    cases ch0 with
    | false =>
      have hys : ys0 = xs := updateList_ok_false hl
      rw [hys] at hl
      refine ⟨xs, by simp [← hout, hys], rfl, ?_⟩
      intro i hi hi' _
      obtain ⟨hlen, helem⟩ := updateList_shape hl
      obtain ⟨ci, hone⟩ := helem i hi hi'
      exact updateOne_children_protected (tidyList_mem htl _ (xs.get_mem i hi)) hone
    | true =>
      obtain ⟨hlen, helem⟩ := updateList_shape hl
      refine ⟨ys0, by simp [← hout], hlen, ?_⟩
      intro i hi hi' _
      obtain ⟨ci, hone⟩ := helem i hi hi'
      exact updateOne_children_protected (tidyList_mem htl _ (xs.get_mem i hi)) hone

/-- Witness for C10: the updater replaces the matched node's children
with the string `"EVIL"`, yet the returned node keeps the (processed)
original children list. -/
theorem updateNodeById_overwrites_updater_children_witness :
    ∃ ys,
      JValue.arr [.obj [("id", .str "b"), ("children", .arr [.obj [("id", .str "x")]])]]
        = .arr ys ∧
      ys.length = [JValue.obj [("id", .str "b"),
        ("children", .arr [.obj [("id", .str "x")]])]].length ∧
      ∀ i (hi : i < [JValue.obj [("id", .str "b"),
            ("children", .arr [.obj [("id", .str "x")]])]].length) (hi' : i < ys.length),
        propD ([JValue.obj [("id", .str "b"),
            ("children", .arr [.obj [("id", .str "x")]])]].get ⟨i, hi⟩) "id" = .str "b" →
        ((truthy (propD ([JValue.obj [("id", .str "b"),
              ("children", .arr [.obj [("id", .str "x")]])]].get ⟨i, hi⟩) "children") = true →
          ∃ r rc, updateNodeById (propD ([JValue.obj [("id", .str "b"),
              ("children", .arr [.obj [("id", .str "x")]])]].get ⟨i, hi⟩) "children")
              "b" (fun _ => .obj [("id", .str "b"), ("children", .str "EVIL")]) = .ok (r, rc) ∧
            propD (ys.get ⟨i, hi'⟩) "children" = r) ∧
        (truthy (propD ([JValue.obj [("id", .str "b"),
              ("children", .arr [.obj [("id", .str "x")]])]].get ⟨i, hi⟩) "children") = false →
          propD (ys.get ⟨i, hi'⟩) "children" =
            propD ([JValue.obj [("id", .str "b"),
              ("children", .arr [.obj [("id", .str "x")]])]].get ⟨i, hi⟩) "children")) :=
  updateNodeById_overwrites_updater_children
    [.obj [("id", .str "b"), ("children", .arr [.obj [("id", .str "x")]])]] "b"
    (fun _ => .obj [("id", .str "b"), ("children", .str "EVIL")]) _ true
    (by simp [tidyForest, tidyList, tidyOne, nullish, propD, getF, lookupF, truthy])
    (fun v => Or.inl rfl)
    (by simp [updateNodeById, updateList, updateOne, nullish, propD, getF, lookupF, truthy,
      objSet, setField])


/-!
## Round-trip theorems (C1)
-/

theorem canon_faithful_all (m : Nat) :
    (∀ v : JValue, jsize v ≤ m → jsonFaithful v = true → canon v = v) ∧
    (∀ xs : List JValue, jsizeL xs ≤ m → jsonFaithfulL xs = true → canonL xs = xs) ∧
    (∀ fs : List (String × JValue), jsizeF fs ≤ m → jsonFaithfulF fs = true →
      canonF fs = fs) := by
  induction m using Nat.strong_induction_on with
  | _ m ih =>
    refine ⟨?_, ?_, ?_⟩
    · intro v hsz hf
      cases v with
      | undef => simp [jsonFaithful] at hf
      | null => rfl
      | bool b => rfl
      | str s => rfl
      | num n =>
        cases n with
        | fin q => rfl
        | nan => simp [jsonFaithful] at hf
        | inf => simp [jsonFaithful] at hf
        | ninf => simp [jsonFaithful] at hf
      | arr xs =>
        rw [jsonFaithful] at hf
        simp only [jsize] at hsz
        have hm1 : m - 1 < m := by omega
        rw [canon, (ih (m - 1) hm1).2.1 xs (by omega) hf]
      | obj fs =>
        rw [jsonFaithful] at hf
        simp only [jsize] at hsz
        have hm1 : m - 1 < m := by omega
        rw [canon, (ih (m - 1) hm1).2.2 fs (by omega) hf]
    · intro xs hsz hf
      cases xs with
      | nil => rfl
      | cons x rest =>
        rw [jsonFaithfulL] at hf
        simp only [Bool.and_eq_true] at hf
        simp only [jsizeL] at hsz
        have hm1 : m - 1 < m := by
          have := jsize_pos x
          omega
        rw [canonL, (ih (m - 1) hm1).1 x (by omega) hf.1,
          (ih (m - 1) hm1).2.1 rest (by omega) hf.2]
    · intro fs hsz hf
      cases fs with
      | nil => rfl
      | cons p rest =>
        obtain ⟨k, v⟩ := p
        rw [jsonFaithfulF] at hf
        simp only [Bool.and_eq_true] at hf
        simp only [jsizeF] at hsz
        have hm1 : m - 1 < m := by
          have := jsize_pos v
          omega
        have hvne : v ≠ .undef := by
          intro hu
          rw [hu] at hf
          simp [jsonFaithful] at hf
        rw [canonF, if_neg hvne, (ih (m - 1) hm1).1 v (by omega) hf.1,
          (ih (m - 1) hm1).2.2 rest (by omega) hf.2]

theorem canon_faithful {v : JValue} (hf : jsonFaithful v = true) : canon v = v :=
  (canon_faithful_all (jsize v)).1 v le_rfl hf

theorem jsonFaithfulF_setField {fs : List (String × JValue)} (key : String)
    (hf : jsonFaithfulF fs = true) {w : JValue} (hw : jsonFaithful w = true) :
    jsonFaithfulF (setField fs key w) = true := by
  induction fs with
  | nil => simp [setField, jsonFaithfulF, hw, jsonFaithfulL]
  | cons p rest ih =>
    obtain ⟨k, v⟩ := p
    rw [jsonFaithfulF] at hf
    simp only [Bool.and_eq_true] at hf
    by_cases hk : k = key
    · simp only [setField, if_pos hk, jsonFaithfulF, hw, Bool.true_and]
      exact hf.2
    · simp only [setField, if_neg hk, jsonFaithfulF, hf.1, Bool.true_and]
      exact ih hf.2

-- The validator never reads `version`, so stamping it does not change
-- the validation outcome.
theorem validateWorldDocument_setVersion (fs : List (String × JValue)) (x : JValue) :
    validateWorldDocument (.obj (setField fs "version" x)) =
      validateWorldDocument (.obj fs) := by
  simp only [validateWorldDocument]
  rw [getF_setField_other fs "version" "assets" x (by decide),
    getF_setField_other fs "version" "nodes" x (by decide)]

/-- Counterexample to claim C1 as stated: the document
`{ nodes: [], metadata: NaN }` passes validation (the validator never
inspects `metadata`), but `JSON.stringify` turns the `NaN` into `null`,
so the round trip yields `{ nodes: [], metadata: null, version: 1 }`,
which is not deep-equal-except-version to the original. -/
theorem world_roundtrip_claim_counterexample :
    validateWorldDocument (.obj [("nodes", .arr []), ("metadata", .num .nan)]) =
      .ok (true, []) ∧
    serializeWorld (.obj [("nodes", .arr []), ("metadata", .num .nan)]) =
      .ok (.obj [("nodes", .arr []), ("metadata", .null), ("version", .num (.fin 1))]) ∧
    deserializeWorld
        (.obj [("nodes", .arr []), ("metadata", .null), ("version", .num (.fin 1))]) =
      .ok (.obj [("nodes", .arr []), ("metadata", .null), ("version", .num (.fin 1))]) ∧
    JValue.obj [("nodes", .arr []), ("metadata", .null), ("version", .num (.fin 1))] ≠
      setVersion (.obj [("nodes", .arr []), ("metadata", .num .nan)]) := by
  refine ⟨?_, ?_, ?_, by decide⟩
  · simp [validateWorldDocument, validateNodeList, validateAssets, getF, lookupF]
  · simp [serializeWorld, validateWorldDocument, validateNodeList, validateAssets, getF,
      lookupF, setVersion, setField, canon, canonF, canonL]
  · simp [deserializeWorld, validateWorldDocument, validateNodeList, validateAssets,
      versionExceeds, numGtOne, getF, lookupF, setField]

/-- Claim C1 (amended): for every JSON-faithful world document (one with
no `undefined` and no non-finite number anywhere — exactly the values
`JSON.stringify` re-encodes verbatim) that passes `validateWorldDocument`,
serialization succeeds and deserializing the wire form returns the
document with only its `version` forced to the supported version 1,
whatever version value it carried. -/
theorem world_roundtrip (doc : JValue) (hf : jsonFaithful doc = true)
    (hv : validateWorldDocument doc = .ok (true, [])) :
    serializeWorld doc = .ok (setVersion doc) ∧
    deserializeWorld (setVersion doc) = .ok (setVersion doc) := by
  obtain ⟨fs, rfl⟩ : ∃ fs, doc = .obj fs := by
    cases doc with
    | obj fs => exact ⟨fs, rfl⟩
    | undef => simp [validateWorldDocument] at hv
    | null => simp [validateWorldDocument] at hv
    | bool b => simp [validateWorldDocument] at hv
    | num n => simp [validateWorldDocument] at hv
    | str s => simp [validateWorldDocument] at hv
    | arr xs => simp [validateWorldDocument] at hv
  have hsv : setVersion (.obj fs) = .obj (setField fs "version" (.num (.fin 1))) := rfl
  have hffs : jsonFaithfulF fs = true := by
    rw [jsonFaithful] at hf
    exact hf
  have hf1 : jsonFaithful (setVersion (.obj fs)) = true := by
    rw [hsv, jsonFaithful]
    exact jsonFaithfulF_setField "version" hffs rfl
  constructor
  · rw [serializeWorld, hv, canon_faithful hf1]
  · rw [hsv]
    have h1 : getF (setField fs "version" (.num (.fin 1))) "version" = .num (.fin 1) :=
      getF_setField_self fs "version" _
    have h2 : (if getF (setField fs "version" (.num (.fin 1))) "version" = .undef
        then setField (setField fs "version" (.num (.fin 1))) "version" (.num (.fin 0))
        else setField fs "version" (.num (.fin 1))) = setField fs "version" (.num (.fin 1)) := by
      rw [h1]
      exact if_neg (by decide)
    simp only [deserializeWorld, h1]
    have h3 : ((JValue.num (JNum.fin 1) : JValue) = JValue.undef) = False := by simp
    simp only [h3, if_false]
    simp only [h1]
    rw [if_neg (by decide)]
    rw [validateWorldDocument_setVersion fs (.num (.fin 1)), hv]
    rw [setField_setField]

/-- Witness for the amended C1 at a concrete document carrying
`version: 7`: the round trip returns it with `version` forced to 1. -/
theorem world_roundtrip_witness :
    serializeWorld (.obj [("version", .num (.fin 7)), ("nodes", .arr [])]) =
      .ok (setVersion (.obj [("version", .num (.fin 7)), ("nodes", .arr [])])) ∧
    deserializeWorld (setVersion (.obj [("version", .num (.fin 7)), ("nodes", .arr [])])) =
      .ok (setVersion (.obj [("version", .num (.fin 7)), ("nodes", .arr [])])) :=
  world_roundtrip (.obj [("version", .num (.fin 7)), ("nodes", .arr [])])
    (by simp [jsonFaithful, jsonFaithfulF, jsonFaithfulL])
    (by simp [validateWorldDocument, validateNodeList, validateAssets, getF, lookupF])


/-!
## Validator totality (C3)
-/

theorem validateWorldDocument_ok_shape {w : JValue} {b : Bool} {es : List VErr}
    (h : validateWorldDocument w = .ok (b, es)) : b = es.isEmpty := by
  cases w with
  | obj fs =>
    simp only [validateWorldDocument] at h
    cases hn : getF fs "nodes" with
    | arr xs =>
      simp only [hn] at h
      cases hv : validateNodeList xs "nodes" 0 (validateAssets (getF fs "assets") "assets").2 []
        with
      | error e => rw [hv] at h; cases h
      | ok p =>
        obtain ⟨ne, sn⟩ := p
        rw [hv] at h
        rw [Except.ok.injEq, Prod.mk.injEq] at h
        rw [← h.1, ← h.2]
    | undef =>
      simp only [hn] at h
      rw [Except.ok.injEq, Prod.mk.injEq] at h
      rw [← h.1, ← h.2]
    | null =>
      simp only [hn] at h
      rw [Except.ok.injEq, Prod.mk.injEq] at h
      rw [← h.1, ← h.2]
    | bool b2 =>
      simp only [hn] at h
      rw [Except.ok.injEq, Prod.mk.injEq] at h
      rw [← h.1, ← h.2]
    | num n2 =>
      simp only [hn] at h
      rw [Except.ok.injEq, Prod.mk.injEq] at h
      rw [← h.1, ← h.2]
    | str s2 =>
      simp only [hn] at h
      rw [Except.ok.injEq, Prod.mk.injEq] at h
      rw [← h.1, ← h.2]
    | obj g =>
      simp only [hn] at h
      rw [Except.ok.injEq, Prod.mk.injEq] at h
      rw [← h.1, ← h.2]
  | undef => simp [validateWorldDocument] at h; rw [h.1, ← h.2]; rfl
  | null => simp [validateWorldDocument] at h; rw [h.1, ← h.2]; rfl
  | bool b2 => simp [validateWorldDocument] at h; rw [h.1, ← h.2]; rfl
  | num n2 => simp [validateWorldDocument] at h; rw [h.1, ← h.2]; rfl
  | str s2 => simp [validateWorldDocument] at h; rw [h.1, ← h.2]; rfl
  | arr xs => simp [validateWorldDocument] at h; rw [h.1, ← h.2]; rfl

/-- Claim C3 (the code contradicts its never-throws half): whenever
`validateWorldDocument` does return a record, `valid` is true exactly when
`errors` is empty (first conjunct); but the function can throw — with
`assets = [null]` and a node whose asset reference carries a well-formed
`assetId`, the resolution `assets.find((asset) => asset.id === …)` reads
`.id` off the `null` entry and raises a TypeError (second conjunct),
so validation is not total. -/
theorem validateWorldDocument_never_throws_refuted :
    (∀ (w : JValue) (b : Bool) (es : List String),
      validateWorldDocumentMessages w = .ok (b, es) → b = es.isEmpty) ∧
    validateWorldDocumentMessages (.obj [("assets", .arr [.null]),
      ("nodes", .arr [.obj [("id", .str "a"),
        ("asset", .obj [("assetId", .str "missing")])]])]) = .error "TypeError" := by
  constructor
  · intro w b es h
    rw [validateWorldDocumentMessages] at h
    cases hv : validateWorldDocument w with
    | error e => rw [hv] at h; cases h
    | ok p =>
      obtain ⟨b0, errs0⟩ := p
      rw [hv] at h
      rw [Except.ok.injEq, Prod.mk.injEq] at h
      rw [← h.1, ← h.2, validateWorldDocument_ok_shape hv]
      cases errs0 <;> rfl
  · rw [validateWorldDocumentMessages]
    have he : validateWorldDocument (.obj [("assets", .arr [.null]),
        ("nodes", .arr [.obj [("id", .str "a"),
          ("asset", .obj [("assetId", .str "missing")])]])]) = .error "TypeError" := by
      simp [validateWorldDocument, validateNodeList, validateSceneNode, idCheck, miscChecks,
        validateAssets,
        validateAssetEntries, validateNodeAssetReference, findAsset, nullish, getF, lookupF,
        hasF, idxPath]
      decide
    rw [he]

/-- Witness for the conditional half of the C3 theorem at a concrete
valid and a concrete invalid document. -/
theorem validateWorldDocument_never_throws_refuted_witness :
    ((true : Bool) = List.isEmpty ([] : List String)) ∧
    validateWorldDocumentMessages (.obj [("assets", .arr [.null]),
      ("nodes", .arr [.obj [("id", .str "a"),
        ("asset", .obj [("assetId", .str "missing")])]])]) = .error "TypeError" :=
  ⟨validateWorldDocument_never_throws_refuted.1 (.obj [("nodes", .arr [])]) true []
    (by simp [validateWorldDocumentMessages, validateWorldDocument, validateNodeList,
      validateAssets, getF, lookupF]),
   validateWorldDocument_never_throws_refuted.2⟩


/-!
## Traversal characterisation (C2, C4)

The lemmas below relate the validator's id bookkeeping and asset
reference checks to the flat pre-order entry list of the traversal.
-/

/-- The errors the traversal characterisation tracks: node id duplicates
and missing-asset references. -/
def tracked : VErr → Bool
  | .nodeIdDup _ _ => true
  | .missingAsset _ _ => true
  | _ => false

theorem tracked_not_mem {e : VErr} {l : List VErr}
    (hl : ∀ e2 ∈ l, tracked e2 = false) (he : tracked e = true) : e ∉ l := by
  intro hmem
  rw [hl e hmem] at he
  cases he

theorem untracked_vec3 (v : JValue) (p : String) :
    ∀ e ∈ validateVector3 v p, tracked e = false := by
  intro e he
  cases v <;> simp only [validateVector3] at he
  case obj fs =>
    rw [List.mem_append, List.mem_append] at he
    rcases he with (he | he) | he <;> split_ifs at he <;> simp at he <;> rw [he] <;> rfl
  all_goals (simp at he; rw [he]; rfl)

theorem untracked_quat (v : JValue) (p : String) :
    ∀ e ∈ validateQuaternion v p, tracked e = false := by
  intro e he
  cases v <;> simp only [validateQuaternion] at he
  case obj fs =>
    rw [List.mem_append, List.mem_append, List.mem_append] at he
    rcases he with ((he | he) | he) | he <;> split_ifs at he <;> simp at he <;> rw [he] <;> rfl
  all_goals (simp at he; rw [he]; rfl)

theorem untracked_transform (v : JValue) (p : String) :
    ∀ e ∈ validateTransform v p, tracked e = false := by
  intro e he
  cases v <;> simp only [validateTransform] at he
  case obj fs =>
    rw [List.mem_append, List.mem_append] at he
    rcases he with (he | he) | he <;> split_ifs at he
    any_goals (simp at he)
    · exact untracked_vec3 _ _ e he
    · exact untracked_quat _ _ e he
    · exact untracked_vec3 _ _ e he
  all_goals (simp at he; rw [he]; rfl)

theorem untracked_component (v : JValue) (p : String) :
    ∀ e ∈ validateComponent v p, tracked e = false := by
  intro e he
  cases v <;> simp only [validateComponent] at he
  case obj fs =>
    rw [List.mem_append] at he
    rcases he with he | he <;> split_ifs at he <;> simp at he <;> rw [he] <;> rfl
  all_goals (simp at he; rw [he]; rfl)

theorem untracked_components (cs : List JValue) (p : String) (i : Nat) :
    ∀ e ∈ validateComponents cs p i, tracked e = false := by
  induction cs generalizing i with
  | nil => intro e he; simp [validateComponents] at he
  | cons c rest ih =>
    intro e he
    rw [validateComponents, List.mem_append] at he
    rcases he with he | he
    · exact untracked_component _ _ e he
    · exact ih (i + 1) e he

theorem untracked_assetEntries (xs : List JValue) (p : String) (i : Nat) (seen : List String) :
    ∀ e ∈ validateAssetEntries xs p i seen, tracked e = false := by
  induction xs generalizing i seen with
  | nil => intro e he; simp [validateAssetEntries] at he
  | cons a rest ih =>
    intro e he
    cases a <;> simp only [validateAssetEntries] at he
    case obj fs =>
      rw [List.mem_append, List.mem_append, List.mem_append] at he
      rcases he with ((he | he) | he) | he
      · rcases hid : getF fs "id" with _ | _ | b | n | s | l | g <;> simp only [hid] at he <;>
          first
            | (split_ifs at he <;> simp at he <;> rw [he] <;> rfl)
            | (simp at he; rw [he]; rfl)
      · split_ifs at he <;> simp at he <;> rw [he] <;> rfl
      · split_ifs at he <;> simp at he <;> rw [he] <;> rfl
      · exact ih _ _ e he
    all_goals
      (rw [List.mem_append] at he
       rcases he with he | he
       · simp at he
         rw [he]
         rfl
       · exact ih _ _ e he)

theorem untracked_validateAssets (v : JValue) (p : String) :
    ∀ e ∈ (validateAssets v p).1, tracked e = false := by
  intro e he
  cases v <;> simp only [validateAssets] at he
  case arr xs => exact untracked_assetEntries xs p 0 [] e he
  all_goals (simp at he; try (rw [he]; rfl))

theorem mem_bestEffortIds {assets : List JValue} {aid : String} :
    aid ∈ bestEffortIds assets ↔ ∃ a ∈ assets, propD a "id" = .str aid := by
  rw [bestEffortIds, List.mem_filterMap]
  constructor
  · rintro ⟨a, ha, hm⟩
    refine ⟨a, ha, ?_⟩
    cases a <;> simp at hm
    case obj fs =>
      rcases hid : getF fs "id" with _ | _ | _ | _ | s | _ | _ <;> rw [hid] at hm <;>
        simp at hm
      rw [propD, hid, hm]
  · rintro ⟨a, ha, hm⟩
    refine ⟨a, ha, ?_⟩
    cases a <;> simp [propD] at hm
    case obj fs => simp [hm]

theorem findAsset_spec {assets : List JValue} (aid : String)
    (hok : assetsOk assets = true) :
    findAsset assets aid = .ok (decide (aid ∈ bestEffortIds assets)) := by
  induction assets with
  | nil => simp [findAsset, bestEffortIds]
  | cons a rest ih =>
    rw [assetsOk, List.all_cons, Bool.and_eq_true] at hok
    have hnn : nullish a = false := by
      cases hb : nullish a
      · rfl
      · rw [hb] at hok; cases hok.1
    rw [findAsset, if_neg (by rw [hnn]; exact Bool.false_ne_true)]
    by_cases hm : propD a "id" = .str aid
    · rw [if_pos hm]
      have : aid ∈ bestEffortIds (a :: rest) := by
        rw [mem_bestEffortIds]
        exact ⟨a, List.mem_cons_self a rest, hm⟩
      simp [this]
    · rw [if_neg hm]
      rw [ih (by rw [assetsOk]; exact hok.2)]
      have : (aid ∈ bestEffortIds (a :: rest)) ↔ (aid ∈ bestEffortIds rest) := by
        rw [mem_bestEffortIds, mem_bestEffortIds]
        constructor
        · rintro ⟨b, hb, hbm⟩
          rcases List.mem_cons.mp hb with rfl | hb2
          · exact absurd hbm hm
          · exact ⟨b, hb2, hbm⟩
        · rintro ⟨b, hb, hbm⟩
          exact ⟨b, List.mem_cons_of_mem a hb, hbm⟩
      simp [this]


theorem untracked_nil : ∀ e ∈ ([] : List VErr), tracked e = false := by
  intro e he
  cases he

theorem untracked_singleton {e0 : VErr} (h : tracked e0 = false) :
    ∀ e ∈ [e0], tracked e = false := by
  intro e he
  rw [List.mem_singleton] at he
  rw [he]
  exact h

theorem untracked_ite {c : Prop} [Decidable c] {l1 l2 : List VErr}
    (h1 : ∀ e ∈ l1, tracked e = false) (h2 : ∀ e ∈ l2, tracked e = false) :
    ∀ e ∈ (if c then l1 else l2), tracked e = false := by
  split_ifs
  · exact h1
  · exact h2

theorem untracked_append {l1 l2 : List VErr}
    (h1 : ∀ e ∈ l1, tracked e = false) (h2 : ∀ e ∈ l2, tracked e = false) :
    ∀ e ∈ l1 ++ l2, tracked e = false := by
  intro e he
  rcases List.mem_append.mp he with he | he
  · exact h1 e he
  · exact h2 e he

theorem untracked_no_dup {l : List VErr} (h : ∀ e ∈ l, tracked e = false)
    (p x : String) : (VErr.nodeIdDup p x ∈ l) = False := by
  simp only [eq_iff_iff, iff_false]
  exact tracked_not_mem h rfl

theorem untracked_no_missing {l : List VErr} (h : ∀ e ∈ l, tracked e = false)
    (p a : String) : (VErr.missingAsset p a ∈ l) = False := by
  simp only [eq_iff_iff, iff_false]
  exact tracked_not_mem h rfl

-- Characterisation of the asset-reference piece of a node's checks,
-- matched against `nodeMissing`.
theorem assetPiece_spec {fs : List (String × JValue)} {path : String}
    {assets : List JValue} (hok : assetsOk assets = true) :
    ∃ es, (if hasF fs "asset" then
        validateNodeAssetReference (getF fs "asset") (path ++ ".asset") assets
      else .ok []) = .ok es ∧
      (∀ p x, (VErr.nodeIdDup p x ∈ es) = False) ∧
      (∀ q a, VErr.missingAsset q a ∈ es ↔
        nodeMissing assets (path, .obj fs) = some (q, a)) := by
  by_cases hhas : hasF fs "asset"
  · rw [if_pos hhas]
    cases har : getF fs "asset" with
    | obj g =>
      cases haid : getF g "assetId" with
      | str s =>
        simp only [validateNodeAssetReference, haid]
        by_cases hb : blank s = true
        · rw [if_pos hb]
          refine ⟨_, rfl, fun p x => by split_ifs <;> simp, fun q a => ?_⟩
          simp only [nodeMissing, har, haid]
          rw [if_pos hb]
          simp only [reduceCtorEq, iff_false]
          intro hm2
          rw [List.mem_append] at hm2
          rcases hm2 with hm2 | hm2
          · simp at hm2
          · split_ifs at hm2 <;> simp at hm2
        · rw [if_neg hb]
          simp only [findAsset_spec s hok, decide_eq_true_eq]
          by_cases hmem : s ∈ bestEffortIds assets
          · rw [if_pos hmem]
            refine ⟨_, rfl, fun p x => by split_ifs <;> simp, fun q a => ?_⟩
            simp only [nodeMissing, har, haid]
            rw [if_neg hb, if_pos hmem]
            simp only [reduceCtorEq, iff_false]
            intro hm2
            rw [List.mem_append] at hm2
            rcases hm2 with hm2 | hm2
            · simp at hm2
            · split_ifs at hm2 <;> simp at hm2
          · rw [if_neg hmem]
            refine ⟨_, rfl, fun p x => by split_ifs <;> simp, fun q a => ?_⟩
            simp only [nodeMissing, har, haid]
            rw [if_neg hb, if_neg hmem]
            constructor
            · intro hm2
              rw [List.mem_append] at hm2
              rcases hm2 with hm2 | hm2
              · rw [List.mem_singleton, VErr.missingAsset.injEq] at hm2
                rw [hm2.1, hm2.2]
              · split_ifs at hm2 <;> simp at hm2
            · intro hsome
              rw [Option.some.injEq, Prod.mk.injEq] at hsome
              rw [List.mem_append, List.mem_singleton, hsome.1, hsome.2]
              exact Or.inl rfl
      | undef =>
        simp only [validateNodeAssetReference, haid]
        refine ⟨_, rfl, fun p x => by split_ifs <;> simp, fun q a => ?_⟩
        simp only [nodeMissing, har, haid, reduceCtorEq, iff_false]
        intro hm2
        rw [List.mem_append] at hm2
        rcases hm2 with hm2 | hm2
        · simp at hm2
        · split_ifs at hm2 <;> simp at hm2
      | null =>
        simp only [validateNodeAssetReference, haid]
        refine ⟨_, rfl, fun p x => by split_ifs <;> simp, fun q a => ?_⟩
        simp only [nodeMissing, har, haid, reduceCtorEq, iff_false]
        intro hm2
        rw [List.mem_append] at hm2
        rcases hm2 with hm2 | hm2
        · simp at hm2
        · split_ifs at hm2 <;> simp at hm2
      | bool b =>
        simp only [validateNodeAssetReference, haid]
        refine ⟨_, rfl, fun p x => by split_ifs <;> simp, fun q a => ?_⟩
        simp only [nodeMissing, har, haid, reduceCtorEq, iff_false]
        intro hm2
        rw [List.mem_append] at hm2
        rcases hm2 with hm2 | hm2
        · simp at hm2
        · split_ifs at hm2 <;> simp at hm2
      | num n =>
        simp only [validateNodeAssetReference, haid]
        refine ⟨_, rfl, fun p x => by split_ifs <;> simp, fun q a => ?_⟩
        simp only [nodeMissing, har, haid, reduceCtorEq, iff_false]
        intro hm2
        rw [List.mem_append] at hm2
        rcases hm2 with hm2 | hm2
        · simp at hm2
        · split_ifs at hm2 <;> simp at hm2
      | arr l =>
        simp only [validateNodeAssetReference, haid]
        refine ⟨_, rfl, fun p x => by split_ifs <;> simp, fun q a => ?_⟩
        simp only [nodeMissing, har, haid, reduceCtorEq, iff_false]
        intro hm2
        rw [List.mem_append] at hm2
        rcases hm2 with hm2 | hm2
        · simp at hm2
        · split_ifs at hm2 <;> simp at hm2
      | obj g2 =>
        simp only [validateNodeAssetReference, haid]
        refine ⟨_, rfl, fun p x => by split_ifs <;> simp, fun q a => ?_⟩
        simp only [nodeMissing, har, haid, reduceCtorEq, iff_false]
        intro hm2
        rw [List.mem_append] at hm2
        rcases hm2 with hm2 | hm2
        · simp at hm2
        · split_ifs at hm2 <;> simp at hm2
    | undef =>
      refine ⟨_, rfl, fun p x => by simp, fun q a => by simp [nodeMissing, har]⟩
    | null =>
      refine ⟨_, rfl, fun p x => by simp, fun q a => by simp [nodeMissing, har]⟩
    | bool b =>
      refine ⟨_, rfl, fun p x => by simp, fun q a => by simp [nodeMissing, har]⟩
    | num n =>
      refine ⟨_, rfl, fun p x => by simp, fun q a => by simp [nodeMissing, har]⟩
    | str s =>
      refine ⟨_, rfl, fun p x => by simp, fun q a => by simp [nodeMissing, har]⟩
    | arr l =>
      refine ⟨_, rfl, fun p x => by simp, fun q a => by simp [nodeMissing, har]⟩
  · rw [if_neg hhas]
    refine ⟨[], rfl, fun p x => by simp, fun q a => ?_⟩
    simp only [List.not_mem_nil, false_iff]
    intro hsome
    have hga : getF fs "asset" = .undef := by
      rw [getF]
      cases hl : lookupF fs "asset" with
      | none => rfl
      | some v =>
        exfalso
        rw [hasF, hl] at hhas
        exact hhas rfl
    simp only [nodeMissing, hga, reduceCtorEq] at hsome


/-!
## Flag algebra for the traversal characterisation (C2, C4)
-/

theorem afterSeen_nil (seen : List String) : afterSeen seen [] = seen := rfl

theorem afterSeen_cons (seen : List String) (e : String × JValue)
    (l : List (String × JValue)) :
    afterSeen seen (e :: l) = afterSeen (stepSeen seen e) l := rfl

theorem afterSeen_append (seen : List String) (l1 l2 : List (String × JValue)) :
    afterSeen seen (l1 ++ l2) = afterSeen (afterSeen seen l1) l2 := by
  rw [afterSeen, afterSeen, afterSeen, List.foldl_append]

theorem stepSeen_none (e : String × JValue) (hv : validNodeId e.2 = none)
    (seen : List String) : stepSeen seen e = seen := by
  simp only [stepSeen, hv]

theorem stepSeen_some (e : String × JValue) {x : String}
    (hv : validNodeId e.2 = some x) (seen : List String) :
    stepSeen seen e = if x ∈ seen then seen else seen ++ [x] := by
  simp only [stepSeen, hv]

theorem dupFlags_cons_none (e : String × JValue) (hv : validNodeId e.2 = none)
    (seen : List String) (l : List (String × JValue)) :
    dupFlags seen (e :: l) = dupFlags seen l := by
  simp only [dupFlags, hv]

theorem dupFlags_cons_some (e : String × JValue) {x : String}
    (hv : validNodeId e.2 = some x) (seen : List String) (l : List (String × JValue)) :
    dupFlags seen (e :: l) =
      if x ∈ seen then (e.1, x) :: dupFlags seen l else dupFlags (seen ++ [x]) l := by
  simp only [dupFlags, hv]

theorem dupFlags_append (seen : List String) (l1 l2 : List (String × JValue)) :
    dupFlags seen (l1 ++ l2) = dupFlags seen l1 ++ dupFlags (afterSeen seen l1) l2 := by
  induction l1 generalizing seen with
  | nil => rfl
  | cons e l1 ih =>
    cases hv : validNodeId e.2 with
    | none =>
      rw [List.cons_append, dupFlags_cons_none e hv, dupFlags_cons_none e hv,
        afterSeen_cons, stepSeen_none e hv, ih]
    | some x =>
      by_cases hx : x ∈ seen
      · rw [List.cons_append, dupFlags_cons_some e hv, if_pos hx, dupFlags_cons_some e hv,
          if_pos hx, afterSeen_cons, stepSeen_some e hv, if_pos hx, List.cons_append, ih]
      · rw [List.cons_append, dupFlags_cons_some e hv, if_neg hx, dupFlags_cons_some e hv,
          if_neg hx, afterSeen_cons, stepSeen_some e hv, if_neg hx, ih]

theorem missingFlags_append (assets : List JValue) (l1 l2 : List (String × JValue)) :
    missingFlags assets (l1 ++ l2) =
      missingFlags assets l1 ++ missingFlags assets l2 := by
  simp [missingFlags, List.filterMap_append]

theorem mem_missingFlags_cons {assets : List JValue} {e : String × JValue}
    {l : List (String × JValue)} {p a : String} :
    (p, a) ∈ missingFlags assets (e :: l) ↔
      nodeMissing assets e = some (p, a) ∨ (p, a) ∈ missingFlags assets l := by
  rw [missingFlags, List.filterMap_cons]
  cases h : nodeMissing assets e with
  | none => simp [missingFlags, h]
  | some pr =>
    simp only [h, List.mem_cons, missingFlags]
    constructor
    · rintro (h2 | h2)
      · exact Or.inl (by rw [h2])
      · exact Or.inr h2
    · rintro (h2 | h2)
      · rw [Option.some.injEq] at h2
        exact Or.inl h2.symm
      · exact Or.inr h2

theorem nodeEntries_obj_arr {fs : List (String × JValue)} {cs : List JValue}
    (hc : lookupF fs "children" = some (.arr cs)) (path : String) :
    nodeEntries (.obj fs) path =
      (path, .obj fs) :: entriesList cs (path ++ ".children") 0 := by
  simp only [nodeEntries]
  split
  · rename_i cs2 heq
    rw [hc, Option.some.injEq, JValue.arr.injEq] at heq
    rw [← heq]
  · rename_i hne
    exact (hne cs hc).elim

theorem nodeEntries_obj_none {fs : List (String × JValue)}
    (hc : lookupF fs "children" = none) (path : String) :
    nodeEntries (.obj fs) path = [(path, .obj fs)] := by
  simp only [nodeEntries]
  split
  · rename_i cs2 heq
    rw [hc] at heq
    exact Option.noConfusion heq
  · rfl

theorem nodeEntries_obj_other {fs : List (String × JValue)} {v : JValue}
    (hc : lookupF fs "children" = some v) (hv : ∀ cs, v ≠ JValue.arr cs)
    (path : String) : nodeEntries (.obj fs) path = [(path, .obj fs)] := by
  simp only [nodeEntries]
  split
  · rename_i cs2 heq
    rw [hc, Option.some.injEq] at heq
    exact absurd heq (hv cs2)
  · rfl

-- Classification of `idCheck` outcomes against the traversal-spec
-- bookkeeping: the returned seen set is `stepSeen`, the errors carry no
-- missing-asset flag, and duplicate-id membership matches `dupFlags`.
theorem idCheck_spec (fs : List (String × JValue)) (path : String) (seen : List String) :
    ∃ idE seen1, idCheck fs path seen = (idE, seen1) ∧
      stepSeen seen (path, .obj fs) = seen1 ∧
      (∀ p a, VErr.missingAsset p a ∉ idE) ∧
      (∀ (p x : String) (l : List (String × JValue)),
        (p, x) ∈ dupFlags seen ((path, .obj fs) :: l) ↔
          (VErr.nodeIdDup p x ∈ idE ∨ (p, x) ∈ dupFlags seen1 l)) := by
  cases hid : getF fs "id" with
  | str s =>
    by_cases hb : blank s = true
    · refine ⟨[.nodeIdInvalid path], seen, ?_, ?_, ?_, ?_⟩
      · simp [idCheck, hid, hb]
      · simp [stepSeen, validNodeId, propD, hid, hb]
      · intro p a h
        simp at h
      · intro p x l
        rw [dupFlags_cons_none (path, .obj fs) (by simp [validNodeId, propD, hid, hb]) seen l]
        simp
    · by_cases hs : s ∈ seen
      · refine ⟨[.nodeIdDup path s], seen, ?_, ?_, ?_, ?_⟩
        · simp [idCheck, hid, hb, hs]
        · simp [stepSeen, validNodeId, propD, hid, hb, hs]
        · intro p a h
          simp at h
        · intro p x l
          have hv : validNodeId ((path, JValue.obj fs)).2 = some s := by
            simp [validNodeId, propD, hid, hb]
          rw [dupFlags_cons_some (path, .obj fs) hv seen l, if_pos hs]
          simp [List.mem_cons, Prod.mk.injEq, and_comm]
      · refine ⟨[], seen ++ [s], ?_, ?_, ?_, ?_⟩
        · simp [idCheck, hid, hb, hs]
        · simp [stepSeen, validNodeId, propD, hid, hb, hs]
        · intro p a h
          simp at h
        · intro p x l
          have hv : validNodeId ((path, JValue.obj fs)).2 = some s := by
            simp [validNodeId, propD, hid, hb]
          rw [dupFlags_cons_some (path, .obj fs) hv seen l, if_neg hs]
          simp
  | undef =>
    refine ⟨[.nodeIdInvalid path], seen, by simp [idCheck, hid],
      by simp [stepSeen, validNodeId, propD, hid], fun p a h => by simp at h, fun p x l => ?_⟩
    rw [dupFlags_cons_none (path, .obj fs) (by simp [validNodeId, propD, hid]) seen l]
    simp
  | null =>
    refine ⟨[.nodeIdInvalid path], seen, by simp [idCheck, hid],
      by simp [stepSeen, validNodeId, propD, hid], fun p a h => by simp at h, fun p x l => ?_⟩
    rw [dupFlags_cons_none (path, .obj fs) (by simp [validNodeId, propD, hid]) seen l]
    simp
  | bool b =>
    refine ⟨[.nodeIdInvalid path], seen, by simp [idCheck, hid],
      by simp [stepSeen, validNodeId, propD, hid], fun p a h => by simp at h, fun p x l => ?_⟩
    rw [dupFlags_cons_none (path, .obj fs) (by simp [validNodeId, propD, hid]) seen l]
    simp
  | num n =>
    refine ⟨[.nodeIdInvalid path], seen, by simp [idCheck, hid],
      by simp [stepSeen, validNodeId, propD, hid], fun p a h => by simp at h, fun p x l => ?_⟩
    rw [dupFlags_cons_none (path, .obj fs) (by simp [validNodeId, propD, hid]) seen l]
    simp
  | arr xs =>
    refine ⟨[.nodeIdInvalid path], seen, by simp [idCheck, hid],
      by simp [stepSeen, validNodeId, propD, hid], fun p a h => by simp at h, fun p x l => ?_⟩
    rw [dupFlags_cons_none (path, .obj fs) (by simp [validNodeId, propD, hid]) seen l]
    simp
  | obj g =>
    refine ⟨[.nodeIdInvalid path], seen, by simp [idCheck, hid],
      by simp [stepSeen, validNodeId, propD, hid], fun p a h => by simp at h, fun p x l => ?_⟩
    rw [dupFlags_cons_none (path, .obj fs) (by simp [validNodeId, propD, hid]) seen l]
    simp

theorem untracked_miscChecks (fs : List (String × JValue)) (path : String) :
    ∀ e ∈ miscChecks fs path, tracked e = false := by
  intro e he
  rw [miscChecks] at he
  rw [List.mem_append, List.mem_append, List.mem_append] at he
  rcases he with ((he | he) | he) | he
  · split_ifs at he <;> simp at he
    rw [he]; rfl
  · split_ifs at he <;> simp at he
    rw [he]; rfl
  · split_ifs at he
    · exact untracked_transform _ _ e he
    · simp at he
  · split_ifs at he
    · revert he
      cases hg : getF fs "components" with
      | arr cs => exact fun he => untracked_components cs (path ++ ".components") 0 e he
      | undef => intro he; simp at he; rw [he]; rfl
      | null => intro he; simp at he; rw [he]; rfl
      | bool b => intro he; simp at he; rw [he]; rfl
      | num n => intro he; simp at he; rw [he]; rfl
      | str s => intro he; simp at he; rw [he]; rfl
      | obj g => intro he; simp at he; rw [he]; rfl
    · simp at he


-- The main traversal characterisation: under non-nullish assets the
-- validator never throws, threads the seen-id set exactly as `afterSeen`
-- over the pre-order entry list, and its duplicate-id and missing-asset
-- errors are exactly `dupFlags` and `missingFlags` over that list.
theorem validate_entries_all (m : Nat) :
    (∀ (node : JValue) (path : String) (assets : List JValue) (seen : List String),
      jsize node ≤ m → assetsOk assets = true →
      ∃ errs, validateSceneNode node path assets seen =
          .ok (errs, afterSeen seen (nodeEntries node path)) ∧
        (∀ p x, VErr.nodeIdDup p x ∈ errs ↔ (p, x) ∈ dupFlags seen (nodeEntries node path)) ∧
        (∀ p a, VErr.missingAsset p a ∈ errs ↔
          (p, a) ∈ missingFlags assets (nodeEntries node path))) ∧
    (∀ (xs : List JValue) (base : String) (i : Nat) (assets : List JValue)
        (seen : List String),
      jsizeL xs ≤ m → assetsOk assets = true →
      ∃ errs, validateNodeList xs base i assets seen =
          .ok (errs, afterSeen seen (entriesList xs base i)) ∧
        (∀ p x, VErr.nodeIdDup p x ∈ errs ↔ (p, x) ∈ dupFlags seen (entriesList xs base i)) ∧
        (∀ p a, VErr.missingAsset p a ∈ errs ↔
          (p, a) ∈ missingFlags assets (entriesList xs base i))) := by
  induction m using Nat.strong_induction_on with
  | _ m ih =>
    constructor
    · intro node path assets seen hsz hok
      cases node with
      | obj fs =>
        simp only [jsize] at hsz
        obtain ⟨aErrs, hA, hAdup, hAmiss⟩ := @assetPiece_spec fs path assets hok
        obtain ⟨idE, seen1, hic, hstep, hidm, hdup⟩ := idCheck_spec fs path seen
        have hmisc := untracked_miscChecks fs path
        have hm1 : m - 1 < m := by omega
        cases hc : lookupF fs "children" with
        | none =>
          have hne := nodeEntries_obj_none hc path
          refine ⟨idE ++ miscChecks fs path ++ aErrs, ?_, ?_, ?_⟩
          · simp only [validateSceneNode, hic, hA]
            split
            · rename_i cs2 heq
              rw [hc] at heq
              exact Option.noConfusion heq
            · rename_i x heq
              rw [hc] at heq
              exact Option.noConfusion heq
            · simp only [hne, afterSeen_cons, afterSeen_nil, hstep]
          · intro p x
            rw [hne, hdup p x []]
            constructor
            · intro h
              rw [List.mem_append, List.mem_append] at h
              rcases h with (h | h) | h
              · exact Or.inl h
              · exact absurd (hmisc _ h) (by simp [tracked])
              · rw [hAdup p x] at h
                exact h.elim
            · rintro (h | h)
              · exact List.mem_append.mpr (Or.inl (List.mem_append.mpr (Or.inl h)))
              · simp [dupFlags] at h
          · intro p a
            rw [hne, mem_missingFlags_cons]
            constructor
            · intro h
              rw [List.mem_append, List.mem_append] at h
              rcases h with (h | h) | h
              · exact absurd h (hidm p a)
              · exact absurd (hmisc _ h) (by simp [tracked])
              · exact Or.inl ((hAmiss p a).mp h)
            · rintro (h | h)
              · exact List.mem_append.mpr (Or.inr ((hAmiss p a).mpr h))
              · simp [missingFlags] at h
        | some c =>
          cases c with
          | arr cs =>
            have hlk := lookupF_jsize hc
            simp only [jsize] at hlk
            obtain ⟨cErrs, hC, hCd, hCm⟩ := (ih (m - 1) hm1).2 cs (path ++ ".children") 0
              assets seen1 (by omega) hok
            have hne := nodeEntries_obj_arr hc path
            refine ⟨idE ++ miscChecks fs path ++ aErrs ++ cErrs, ?_, ?_, ?_⟩
            · simp only [validateSceneNode, hic, hA]
              split
              · rename_i cs2 heq
                rw [hc, Option.some.injEq, JValue.arr.injEq] at heq
                rw [← heq]
                simp only [hC, hne, afterSeen_cons, hstep]
              · rename_i v hnot heq
                rw [hc, Option.some.injEq] at heq
                exact (hnot cs heq.symm).elim
              · rename_i heq
                rw [hc] at heq
                exact Option.noConfusion heq
            · intro p x
              rw [hne, hdup p x (entriesList cs (path ++ ".children") 0)]
              constructor
              · intro h
                rw [List.mem_append, List.mem_append, List.mem_append] at h
                rcases h with ((h | h) | h) | h
                · exact Or.inl h
                · exact absurd (hmisc _ h) (by simp [tracked])
                · rw [hAdup p x] at h
                  exact h.elim
                · exact Or.inr ((hCd p x).mp h)
              · rintro (h | h)
                · exact List.mem_append.mpr (Or.inl (List.mem_append.mpr (Or.inl
                    (List.mem_append.mpr (Or.inl h)))))
                · exact List.mem_append.mpr (Or.inr ((hCd p x).mpr h))
            · intro p a
              rw [hne, mem_missingFlags_cons]
              constructor
              · intro h
                rw [List.mem_append, List.mem_append, List.mem_append] at h
                rcases h with ((h | h) | h) | h
                · exact absurd h (hidm p a)
                · exact absurd (hmisc _ h) (by simp [tracked])
                · exact Or.inl ((hAmiss p a).mp h)
                · exact Or.inr ((hCm p a).mp h)
              · rintro (h | h)
                · exact List.mem_append.mpr (Or.inl (List.mem_append.mpr (Or.inr
                    ((hAmiss p a).mpr h))))
                · exact List.mem_append.mpr (Or.inr ((hCm p a).mpr h))
          | undef =>
            have hne := nodeEntries_obj_other hc (fun cs h => JValue.noConfusion h) path
            refine ⟨idE ++ miscChecks fs path ++ aErrs ++ [VErr.nodeChildrenNotArray path],
              ?_, ?_, ?_⟩
            · simp only [validateSceneNode, hic, hA]
              split
              · rename_i cs2 heq
                rw [hc, Option.some.injEq] at heq
                exact JValue.noConfusion heq
              · simp only [hne, afterSeen_cons, afterSeen_nil, hstep]
              · rename_i heq
                rw [hc] at heq
                exact Option.noConfusion heq
            · intro p x
              rw [hne, hdup p x []]
              constructor
              · intro h
                rw [List.mem_append, List.mem_append, List.mem_append] at h
                rcases h with ((h | h) | h) | h
                · exact Or.inl h
                · exact absurd (hmisc _ h) (by simp [tracked])
                · rw [hAdup p x] at h
                  exact h.elim
                · simp at h
              · rintro (h | h)
                · exact List.mem_append.mpr (Or.inl (List.mem_append.mpr (Or.inl
                    (List.mem_append.mpr (Or.inl h)))))
                · simp [dupFlags] at h
            · intro p a
              rw [hne, mem_missingFlags_cons]
              constructor
              · intro h
                rw [List.mem_append, List.mem_append, List.mem_append] at h
                rcases h with ((h | h) | h) | h
                · exact absurd h (hidm p a)
                · exact absurd (hmisc _ h) (by simp [tracked])
                · exact Or.inl ((hAmiss p a).mp h)
                · simp at h
              · rintro (h | h)
                · exact List.mem_append.mpr (Or.inl (List.mem_append.mpr (Or.inr
                    ((hAmiss p a).mpr h))))
                · simp [missingFlags] at h
          | null =>
            have hne := nodeEntries_obj_other hc (fun cs h => JValue.noConfusion h) path
            refine ⟨idE ++ miscChecks fs path ++ aErrs ++ [VErr.nodeChildrenNotArray path],
              ?_, ?_, ?_⟩
            · simp only [validateSceneNode, hic, hA]
              split
              · rename_i cs2 heq
                rw [hc, Option.some.injEq] at heq
                exact JValue.noConfusion heq
              · simp only [hne, afterSeen_cons, afterSeen_nil, hstep]
              · rename_i heq
                rw [hc] at heq
                exact Option.noConfusion heq
            · intro p x
              rw [hne, hdup p x []]
              constructor
              · intro h
                rw [List.mem_append, List.mem_append, List.mem_append] at h
                rcases h with ((h | h) | h) | h
                · exact Or.inl h
                · exact absurd (hmisc _ h) (by simp [tracked])
                · rw [hAdup p x] at h
                  exact h.elim
                · simp at h
              · rintro (h | h)
                · exact List.mem_append.mpr (Or.inl (List.mem_append.mpr (Or.inl
                    (List.mem_append.mpr (Or.inl h)))))
                · simp [dupFlags] at h
            · intro p a
              rw [hne, mem_missingFlags_cons]
              constructor
              · intro h
                rw [List.mem_append, List.mem_append, List.mem_append] at h
                rcases h with ((h | h) | h) | h
                · exact absurd h (hidm p a)
                · exact absurd (hmisc _ h) (by simp [tracked])
                · exact Or.inl ((hAmiss p a).mp h)
                · simp at h
              · rintro (h | h)
                · exact List.mem_append.mpr (Or.inl (List.mem_append.mpr (Or.inr
                    ((hAmiss p a).mpr h))))
                · simp [missingFlags] at h
          | bool b =>
            have hne := nodeEntries_obj_other hc (fun cs h => JValue.noConfusion h) path
            refine ⟨idE ++ miscChecks fs path ++ aErrs ++ [VErr.nodeChildrenNotArray path],
              ?_, ?_, ?_⟩
            · simp only [validateSceneNode, hic, hA]
              split
              · rename_i cs2 heq
                rw [hc, Option.some.injEq] at heq
                exact JValue.noConfusion heq
              · simp only [hne, afterSeen_cons, afterSeen_nil, hstep]
              · rename_i heq
                rw [hc] at heq
                exact Option.noConfusion heq
            · intro p x
              rw [hne, hdup p x []]
              constructor
              · intro h
                rw [List.mem_append, List.mem_append, List.mem_append] at h
                rcases h with ((h | h) | h) | h
                · exact Or.inl h
                · exact absurd (hmisc _ h) (by simp [tracked])
                · rw [hAdup p x] at h
                  exact h.elim
                · simp at h
              · rintro (h | h)
                · exact List.mem_append.mpr (Or.inl (List.mem_append.mpr (Or.inl
                    (List.mem_append.mpr (Or.inl h)))))
                · simp [dupFlags] at h
            · intro p a
              rw [hne, mem_missingFlags_cons]
              constructor
              · intro h
                rw [List.mem_append, List.mem_append, List.mem_append] at h
                rcases h with ((h | h) | h) | h
                · exact absurd h (hidm p a)
                · exact absurd (hmisc _ h) (by simp [tracked])
                · exact Or.inl ((hAmiss p a).mp h)
                · simp at h
              · rintro (h | h)
                · exact List.mem_append.mpr (Or.inl (List.mem_append.mpr (Or.inr
                    ((hAmiss p a).mpr h))))
                · simp [missingFlags] at h
          | num n =>
            have hne := nodeEntries_obj_other hc (fun cs h => JValue.noConfusion h) path
            refine ⟨idE ++ miscChecks fs path ++ aErrs ++ [VErr.nodeChildrenNotArray path],
              ?_, ?_, ?_⟩
            · simp only [validateSceneNode, hic, hA]
              split
              · rename_i cs2 heq
                rw [hc, Option.some.injEq] at heq
                exact JValue.noConfusion heq
              · simp only [hne, afterSeen_cons, afterSeen_nil, hstep]
              · rename_i heq
                rw [hc] at heq
                exact Option.noConfusion heq
            · intro p x
              rw [hne, hdup p x []]
              constructor
              · intro h
                rw [List.mem_append, List.mem_append, List.mem_append] at h
                rcases h with ((h | h) | h) | h
                · exact Or.inl h
                · exact absurd (hmisc _ h) (by simp [tracked])
                · rw [hAdup p x] at h
                  exact h.elim
                · simp at h
              · rintro (h | h)
                · exact List.mem_append.mpr (Or.inl (List.mem_append.mpr (Or.inl
                    (List.mem_append.mpr (Or.inl h)))))
                · simp [dupFlags] at h
            · intro p a
              rw [hne, mem_missingFlags_cons]
              constructor
              · intro h
                rw [List.mem_append, List.mem_append, List.mem_append] at h
                rcases h with ((h | h) | h) | h
                · exact absurd h (hidm p a)
                · exact absurd (hmisc _ h) (by simp [tracked])
                · exact Or.inl ((hAmiss p a).mp h)
                · simp at h
              · rintro (h | h)
                · exact List.mem_append.mpr (Or.inl (List.mem_append.mpr (Or.inr
                    ((hAmiss p a).mpr h))))
                · simp [missingFlags] at h
          | str s =>
            have hne := nodeEntries_obj_other hc (fun cs h => JValue.noConfusion h) path
            refine ⟨idE ++ miscChecks fs path ++ aErrs ++ [VErr.nodeChildrenNotArray path],
              ?_, ?_, ?_⟩
            · simp only [validateSceneNode, hic, hA]
              split
              · rename_i cs2 heq
                rw [hc, Option.some.injEq] at heq
                exact JValue.noConfusion heq
              · simp only [hne, afterSeen_cons, afterSeen_nil, hstep]
              · rename_i heq
                rw [hc] at heq
                exact Option.noConfusion heq
            · intro p x
              rw [hne, hdup p x []]
              constructor
              · intro h
                rw [List.mem_append, List.mem_append, List.mem_append] at h
                rcases h with ((h | h) | h) | h
                · exact Or.inl h
                · exact absurd (hmisc _ h) (by simp [tracked])
                · rw [hAdup p x] at h
                  exact h.elim
                · simp at h
              · rintro (h | h)
                · exact List.mem_append.mpr (Or.inl (List.mem_append.mpr (Or.inl
                    (List.mem_append.mpr (Or.inl h)))))
                · simp [dupFlags] at h
            · intro p a
              rw [hne, mem_missingFlags_cons]
              constructor
              · intro h
                rw [List.mem_append, List.mem_append, List.mem_append] at h
                rcases h with ((h | h) | h) | h
                · exact absurd h (hidm p a)
                · exact absurd (hmisc _ h) (by simp [tracked])
                · exact Or.inl ((hAmiss p a).mp h)
                · simp at h
              · rintro (h | h)
                · exact List.mem_append.mpr (Or.inl (List.mem_append.mpr (Or.inr
                    ((hAmiss p a).mpr h))))
                · simp [missingFlags] at h
          | obj g =>
            have hne := nodeEntries_obj_other hc (fun cs h => JValue.noConfusion h) path
            refine ⟨idE ++ miscChecks fs path ++ aErrs ++ [VErr.nodeChildrenNotArray path],
              ?_, ?_, ?_⟩
            · simp only [validateSceneNode, hic, hA]
              split
              · rename_i cs2 heq
                rw [hc, Option.some.injEq] at heq
                exact JValue.noConfusion heq
              · simp only [hne, afterSeen_cons, afterSeen_nil, hstep]
              · rename_i heq
                rw [hc] at heq
                exact Option.noConfusion heq
            · intro p x
              rw [hne, hdup p x []]
              constructor
              · intro h
                rw [List.mem_append, List.mem_append, List.mem_append] at h
                rcases h with ((h | h) | h) | h
                · exact Or.inl h
                · exact absurd (hmisc _ h) (by simp [tracked])
                · rw [hAdup p x] at h
                  exact h.elim
                · simp at h
              · rintro (h | h)
                · exact List.mem_append.mpr (Or.inl (List.mem_append.mpr (Or.inl
                    (List.mem_append.mpr (Or.inl h)))))
                · simp [dupFlags] at h
            · intro p a
              rw [hne, mem_missingFlags_cons]
              constructor
              · intro h
                rw [List.mem_append, List.mem_append, List.mem_append] at h
                rcases h with ((h | h) | h) | h
                · exact absurd h (hidm p a)
                · exact absurd (hmisc _ h) (by simp [tracked])
                · exact Or.inl ((hAmiss p a).mp h)
                · simp at h
              · rintro (h | h)
                · exact List.mem_append.mpr (Or.inl (List.mem_append.mpr (Or.inr
                    ((hAmiss p a).mpr h))))
                · simp [missingFlags] at h
      | undef =>
        exact ⟨[.nodeNotObject path], by simp [validateSceneNode, nodeEntries, afterSeen],
          fun p x => by simp [nodeEntries, dupFlags],
          fun p a => by simp [nodeEntries, missingFlags]⟩
      | null =>
        exact ⟨[.nodeNotObject path], by simp [validateSceneNode, nodeEntries, afterSeen],
          fun p x => by simp [nodeEntries, dupFlags],
          fun p a => by simp [nodeEntries, missingFlags]⟩
      | bool b =>
        exact ⟨[.nodeNotObject path], by simp [validateSceneNode, nodeEntries, afterSeen],
          fun p x => by simp [nodeEntries, dupFlags],
          fun p a => by simp [nodeEntries, missingFlags]⟩
      | num n =>
        exact ⟨[.nodeNotObject path], by simp [validateSceneNode, nodeEntries, afterSeen],
          fun p x => by simp [nodeEntries, dupFlags],
          fun p a => by simp [nodeEntries, missingFlags]⟩
      | str s =>
        exact ⟨[.nodeNotObject path], by simp [validateSceneNode, nodeEntries, afterSeen],
          fun p x => by simp [nodeEntries, dupFlags],
          fun p a => by simp [nodeEntries, missingFlags]⟩
      | arr ys =>
        exact ⟨[.nodeNotObject path], by simp [validateSceneNode, nodeEntries, afterSeen],
          fun p x => by simp [nodeEntries, dupFlags],
          fun p a => by simp [nodeEntries, missingFlags]⟩
    · intro xs base i assets seen hsz hok
      cases xs with
      | nil =>
        exact ⟨[], by simp [validateNodeList, entriesList, afterSeen],
          fun p x => by simp [entriesList, dupFlags],
          fun p a => by simp [entriesList, missingFlags]⟩
      | cons x rest =>
        simp only [jsizeL] at hsz
        have hm1 : m - 1 < m := by
          have := jsize_pos x
          omega
        obtain ⟨errs1, h1, h1d, h1m⟩ := (ih (m - 1) hm1).1 x (idxPath base i) assets seen
          (by omega) hok
        obtain ⟨errs2, h2, h2d, h2m⟩ := (ih (m - 1) hm1).2 rest base (i + 1) assets
          (afterSeen seen (nodeEntries x (idxPath base i))) (by omega) hok
        refine ⟨errs1 ++ errs2, ?_, ?_, ?_⟩
        · simp only [validateNodeList, h1, h2, entriesList, afterSeen_append]
        · intro p y
          simp only [entriesList, dupFlags_append, List.mem_append]
          exact or_congr (h1d p y) (h2d p y)
        · intro p a
          simp only [entriesList, missingFlags_append, List.mem_append]
          exact or_congr (h1m p a) (h2m p a)


theorem mem_afterSeen {x : String} :
    ∀ {l : List (String × JValue)} {seen : List String},
      x ∈ afterSeen seen l ↔ x ∈ seen ∨ ∃ e ∈ l, validNodeId e.2 = some x := by
  intro l
  induction l with
  | nil =>
    intro seen
    simp [afterSeen_nil]
  | cons e0 rest ih =>
    intro seen
    rw [afterSeen_cons, ih]
    cases hv : validNodeId e0.2 with
    | none =>
      rw [stepSeen_none e0 hv]
      constructor
      · rintro (h | ⟨e, he, hee⟩)
        · exact Or.inl h
        · exact Or.inr ⟨e, List.mem_cons_of_mem _ he, hee⟩
      · rintro (h | ⟨e, he, hee⟩)
        · exact Or.inl h
        · rcases List.mem_cons.mp he with rfl | he2
          · rw [hv] at hee
            exact Option.noConfusion hee
          · exact Or.inr ⟨e, he2, hee⟩
    | some y =>
      rw [stepSeen_some e0 hv]
      by_cases hy : y ∈ seen
      · rw [if_pos hy]
        constructor
        · rintro (h | ⟨e, he, hee⟩)
          · exact Or.inl h
          · exact Or.inr ⟨e, List.mem_cons_of_mem _ he, hee⟩
        · rintro (h | ⟨e, he, hee⟩)
          · exact Or.inl h
          · rcases List.mem_cons.mp he with rfl | he2
            · rw [hv, Option.some.injEq] at hee
              exact Or.inl (by rw [← hee]; exact hy)
            · exact Or.inr ⟨e, he2, hee⟩
      · rw [if_neg hy]
        constructor
        · rintro (h | ⟨e, he, hee⟩)
          · rcases List.mem_append.mp h with h2 | h2
            · exact Or.inl h2
            · rw [List.mem_singleton] at h2
              exact Or.inr ⟨e0, List.mem_cons_self _ _, by rw [hv, h2]⟩
          · exact Or.inr ⟨e, List.mem_cons_of_mem _ he, hee⟩
        · rintro (h | ⟨e, he, hee⟩)
          · exact Or.inl (List.mem_append.mpr (Or.inl h))
          · rcases List.mem_cons.mp he with rfl | he2
            · rw [hv, Option.some.injEq] at hee
              refine Or.inl (List.mem_append.mpr (Or.inr ?_))
              rw [hee]
              exact List.mem_singleton.mpr rfl
            · exact Or.inr ⟨e, he2, hee⟩

-- A `(path, id)` pair is flagged as a duplicate exactly when some entry at
-- that path carries that id and the id was already seen before the entry.
theorem mem_dupFlags {p x : String} :
    ∀ {l : List (String × JValue)} {seen : List String},
      (p, x) ∈ dupFlags seen l ↔
        ∃ l1 e l2, l = l1 ++ e :: l2 ∧ e.1 = p ∧ validNodeId e.2 = some x ∧
          x ∈ afterSeen seen l1 := by
  intro l
  induction l with
  | nil =>
    intro seen
    simp [dupFlags]
  | cons e0 rest ih =>
    intro seen
    cases hv : validNodeId e0.2 with
    | none =>
      rw [dupFlags_cons_none e0 hv, ih]
      constructor
      · rintro ⟨l1, e, l2, rfl, hep, hev, hx⟩
        exact ⟨e0 :: l1, e, l2, rfl, hep, hev,
          by rwa [afterSeen_cons, stepSeen_none e0 hv]⟩
      · rintro ⟨l1, e, l2, heq, hep, hev, hx⟩
        cases l1 with
        | nil =>
          rw [List.nil_append] at heq
          injection heq with h1 h2
          rw [← h1, hv] at hev
          exact Option.noConfusion hev
        | cons f l1 =>
          rw [List.cons_append] at heq
          injection heq with h1 h2
          rw [← h1, afterSeen_cons, stepSeen_none e0 hv] at hx
          exact ⟨l1, e, l2, h2, hep, hev, hx⟩
    | some y =>
      by_cases hy : y ∈ seen
      · rw [dupFlags_cons_some e0 hv, if_pos hy, List.mem_cons]
        constructor
        · rintro (h | h)
          · rw [Prod.mk.injEq] at h
            refine ⟨[], e0, rest, rfl, h.1.symm, by rw [hv, h.2], ?_⟩
            rw [afterSeen_nil, h.2]
            exact hy
          · rw [ih] at h
            obtain ⟨l1, e, l2, rfl, hep, hev, hx⟩ := h
            exact ⟨e0 :: l1, e, l2, rfl, hep, hev,
              by rw [afterSeen_cons, stepSeen_some e0 hv, if_pos hy]; exact hx⟩
        · rintro ⟨l1, e, l2, heq, hep, hev, hx⟩
          cases l1 with
          | nil =>
            rw [List.nil_append] at heq
            injection heq with h1 h2
            left
            rw [← h1] at hev hep
            rw [hv, Option.some.injEq] at hev
            rw [Prod.mk.injEq]
            exact ⟨hep.symm, hev.symm⟩
          | cons f l1 =>
            rw [List.cons_append] at heq
            injection heq with h1 h2
            right
            rw [ih]
            rw [← h1, afterSeen_cons, stepSeen_some e0 hv, if_pos hy] at hx
            exact ⟨l1, e, l2, h2, hep, hev, hx⟩
      · rw [dupFlags_cons_some e0 hv, if_neg hy, ih]
        constructor
        · rintro ⟨l1, e, l2, rfl, hep, hev, hx⟩
          exact ⟨e0 :: l1, e, l2, rfl, hep, hev,
            by rw [afterSeen_cons, stepSeen_some e0 hv, if_neg hy]; exact hx⟩
        · rintro ⟨l1, e, l2, heq, hep, hev, hx⟩
          cases l1 with
          | nil =>
            rw [List.nil_append] at heq
            injection heq with h1 h2
            rw [← h1, hv, Option.some.injEq] at hev
            rw [afterSeen_nil] at hx
            rw [hev] at hy
            exact absurd hx hy
          | cons f l1 =>
            rw [List.cons_append] at heq
            injection heq with h1 h2
            rw [← h1, afterSeen_cons, stepSeen_some e0 hv, if_neg hy] at hx
            exact ⟨l1, e, l2, h2, hep, hev, hx⟩

-- Splitting a list at an element that occurs in neither prefix pins down
-- the decomposition.
theorem append_cons_inj {α : Type} {a : α} :
    ∀ {l1 m1 l2 m2 : List α}, l1 ++ a :: l2 = m1 ++ a :: m2 →
      a ∉ l1 → a ∉ m1 → l1 = m1 ∧ l2 = m2 := by
  intro l1
  induction l1 with
  | nil =>
    intro m1 l2 m2 h h1 h2
    cases m1 with
    | nil =>
      rw [List.nil_append, List.nil_append] at h
      injection h with h3 h4
      exact ⟨rfl, h4⟩
    | cons b m1 =>
      rw [List.nil_append, List.cons_append] at h
      injection h with h3 h4
      exact absurd (by rw [h3]; exact List.mem_cons_self _ _) h2
  | cons c l1 ih =>
    intro m1 l2 m2 h h1 h2
    cases m1 with
    | nil =>
      rw [List.nil_append, List.cons_append] at h
      injection h with h3 h4
      exact absurd (by rw [← h3]; exact List.mem_cons_self _ _) h1
    | cons b m1 =>
      rw [List.cons_append, List.cons_append] at h
      injection h with h3 h4
      have h5 := ih h4 (fun ha => h1 (List.mem_cons_of_mem _ ha))
        (fun ha => h2 (List.mem_cons_of_mem _ ha))
      refine ⟨?_, h5.2⟩
      rw [h3, h5.1]


-- Splitting at an element that occurs nowhere else in the left split is
-- unambiguous.
theorem append_cons_unique {α : Type} {a : α} :
    ∀ {l1 m1 l2 m2 : List α}, l1 ++ a :: l2 = m1 ++ a :: m2 →
      a ∉ l1 → a ∉ l2 → l1 = m1 ∧ l2 = m2 := by
  intro l1
  induction l1 with
  | nil =>
    intro m1 l2 m2 h h1 h2
    cases m1 with
    | nil =>
      rw [List.nil_append, List.nil_append] at h
      injection h with h3 h4
      exact ⟨rfl, h4⟩
    | cons b m1 =>
      rw [List.nil_append, List.cons_append] at h
      injection h with h3 h4
      refine absurd ?_ h2
      rw [h4]
      exact List.mem_append.mpr (Or.inr (List.mem_cons_self _ _))
  | cons c l1 ih =>
    intro m1 l2 m2 h h1 h2
    cases m1 with
    | nil =>
      rw [List.nil_append, List.cons_append] at h
      injection h with h3 h4
      refine absurd ?_ h1
      rw [← h3]
      exact List.mem_cons_self _ _
    | cons b m1 =>
      rw [List.cons_append, List.cons_append] at h
      injection h with h3 h4
      have h5 := ih h4 (fun ha => h1 (List.mem_cons_of_mem _ ha)) h2
      refine ⟨?_, h5.2⟩
      rw [h3, h5.1]

-- `validateWorldDocument` on an object document whose `nodes` field is an
-- array and whose resolved asset list has no nullish entry: it returns the
-- `{ valid, errors }` record, and its duplicate-id and missing-asset
-- errors are exactly the traversal flags.
theorem validateWorldDocument_flags {fs : List (String × JValue)} {xs : List JValue}
    (hnodes : getF fs "nodes" = .arr xs)
    (hok : assetsOk (validateAssets (getF fs "assets") "assets").2 = true) :
    ∃ errs, validateWorldDocument (.obj fs) = .ok (errs.isEmpty, errs) ∧
      (∀ p x, VErr.nodeIdDup p x ∈ errs ↔
        (p, x) ∈ dupFlags [] (entriesList xs "nodes" 0)) ∧
      (∀ p a, VErr.missingAsset p a ∈ errs ↔
        (p, a) ∈ missingFlags (validateAssets (getF fs "assets") "assets").2
          (entriesList xs "nodes" 0)) := by
  obtain ⟨nErrs, hN, hNd, hNm⟩ := (validate_entries_all (jsizeL xs)).2 xs "nodes" 0
    (validateAssets (getF fs "assets") "assets").2 [] le_rfl hok
  refine ⟨(validateAssets (getF fs "assets") "assets").1 ++ nErrs, ?_, ?_, ?_⟩
  · simp only [validateWorldDocument, hnodes, hN]
  · intro p x
    rw [List.mem_append]
    constructor
    · rintro (h | h)
      · exact absurd (untracked_validateAssets _ _ _ h) (by simp [tracked])
      · exact (hNd p x).mp h
    · intro h
      exact Or.inr ((hNd p x).mpr h)
  · intro p a
    rw [List.mem_append]
    constructor
    · rintro (h | h)
      · exact absurd (untracked_validateAssets _ _ _ h) (by simp [tracked])
      · exact (hNm p a).mp h
    · intro h
      exact Or.inr ((hNm p a).mpr h)

/-- Counterexample to claim C2 as stated: this document carries two scene
nodes with the same id `"x"`, yet `validateWorldDocument` does not return
`valid = false` — it throws a TypeError, because the assets array contains
`null` and the first node carries an asset reference whose resolution reads
`.id` off the null entry. -/
theorem dup_node_id_claim_counterexample :
    (validNodeId (.obj [("id", .str "x"),
        ("asset", .obj [("assetId", .str "m")])]) = some "x" ∧
      validNodeId (.obj [("id", .str "x")]) = some "x") ∧
    validateWorldDocumentMessages (.obj [("assets", .arr [.null]),
      ("nodes", .arr [.obj [("id", .str "x"),
          ("asset", .obj [("assetId", .str "m")])],
        .obj [("id", .str "x")]])]) = .error "TypeError" := by
  refine ⟨⟨by decide, by decide⟩, ?_⟩
  simp [validateWorldDocumentMessages, validateWorldDocument, validateNodeList,
    validateSceneNode, idCheck, miscChecks, validateAssets, validateAssetEntries,
    validateNodeAssetReference, findAsset, nullish, getF, lookupF, hasF, idxPath]
  decide

/-- Claim C2 (amended): consider a world document (an object whose `nodes`
field is an array) whose resolved asset list has no nullish entry — the
proviso under which validation cannot throw.  If the pre-order, depth-first
entry list of the node forest contains exactly two entries carrying the
same valid id `x` — at distinct paths, as distinct tree positions always
are — then `validateWorldDocument` returns `valid = false` with a
duplicate-id error naming the id and the path of the second occurrence in
document order, and no duplicate-id error names the first occurrence's
path with that id. -/
theorem dup_node_id_second_flagged (fs : List (String × JValue)) (xs : List JValue)
    (hnodes : getF fs "nodes" = .arr xs)
    (hok : assetsOk (validateAssets (getF fs "assets") "assets").2 = true)
    (l1 l2 l3 : List (String × JValue)) (e1 e2 : String × JValue) (x : String)
    (hE : entriesList xs "nodes" 0 = l1 ++ e1 :: (l2 ++ e2 :: l3))
    (h1 : validNodeId e1.2 = some x) (h2 : validNodeId e2.2 = some x)
    (honly : ∀ e, (e ∈ l1 ∨ e ∈ l2 ∨ e ∈ l3) → validNodeId e.2 ≠ some x)
    (hp : e1.1 ≠ e2.1) :
    ∃ errs, validateWorldDocument (.obj fs) = .ok (false, errs) ∧
      VErr.nodeIdDup e2.1 x ∈ errs ∧ VErr.nodeIdDup e1.1 x ∉ errs := by
  obtain ⟨errs, hW, hD, hM⟩ := validateWorldDocument_flags hnodes hok
  have he2 : VErr.nodeIdDup e2.1 x ∈ errs := by
    rw [hD, hE, mem_dupFlags]
    refine ⟨l1 ++ e1 :: l2, e2, l3, by simp, rfl, h2, ?_⟩
    rw [mem_afterSeen]
    exact Or.inr ⟨e1, List.mem_append.mpr (Or.inr (List.mem_cons_self _ _)), h1⟩
  have he1 : VErr.nodeIdDup e1.1 x ∉ errs := by
    intro hmem
    rw [hD, hE, mem_dupFlags] at hmem
    obtain ⟨m1, f, m2, heq, hfp, hfv, hfx⟩ := hmem
    have hment : ∀ g, g ∈ l1 ++ e1 :: (l2 ++ e2 :: l3) →
        validNodeId g.2 = some x → g = e1 ∨ g = e2 := by
      intro g hg hgv
      rcases List.mem_append.mp hg with hg | hg
      · exact absurd hgv (honly g (Or.inl hg))
      · rcases List.mem_cons.mp hg with rfl | hg
        · exact Or.inl rfl
        · rcases List.mem_append.mp hg with hg | hg
          · exact absurd hgv (honly g (Or.inr (Or.inl hg)))
          · rcases List.mem_cons.mp hg with rfl | hg
            · exact Or.inr rfl
            · exact absurd hgv (honly g (Or.inr (Or.inr hg)))
    have hfmem : f ∈ l1 ++ e1 :: (l2 ++ e2 :: l3) := by
      rw [heq]
      exact List.mem_append.mpr (Or.inr (List.mem_cons_self _ _))
    rcases hment f hfmem hfv with rfl | rfl
    · have hne1l1 : f ∉ l1 := fun h => absurd h1 (honly f (Or.inl h))
      have hne1tail : f ∉ l2 ++ e2 :: l3 := by
        intro h
        rcases List.mem_append.mp h with h | h
        · exact absurd h1 (honly f (Or.inr (Or.inl h)))
        · rcases List.mem_cons.mp h with h | h
          · exact hp (congrArg Prod.fst h)
          · exact absurd h1 (honly f (Or.inr (Or.inr h)))
      obtain ⟨hm1eq, _⟩ := append_cons_unique heq hne1l1 hne1tail
      rw [← hm1eq, mem_afterSeen] at hfx
      rcases hfx with hfx | ⟨g, hgm, hgv⟩
      · simp at hfx
      · exact absurd hgv (honly g (Or.inl hgm))
    · exact hp hfp.symm
  have hfalse : errs.isEmpty = false := by
    cases errs with
    | nil => exact absurd he2 (List.not_mem_nil _)
    | cons b l => rfl
  rw [hfalse] at hW
  exact ⟨errs, hW, he2, he1⟩

/-- Witness for the amended C2 at a concrete two-node document sharing id
`"dup"`: the second occurrence `nodes[1]` is flagged, the first is not. -/
theorem dup_node_id_second_flagged_witness :
    ∃ errs, validateWorldDocument (.obj [("nodes", .arr [.obj [("id", .str "dup")],
        .obj [("id", .str "dup")]])]) = .ok (false, errs) ∧
      VErr.nodeIdDup "nodes[1]" "dup" ∈ errs ∧
      VErr.nodeIdDup "nodes[0]" "dup" ∉ errs :=
  dup_node_id_second_flagged [("nodes", .arr [.obj [("id", .str "dup")],
      .obj [("id", .str "dup")]])]
    [.obj [("id", .str "dup")], .obj [("id", .str "dup")]]
    rfl rfl
    [] [] [] ("nodes[0]", .obj [("id", .str "dup")])
    ("nodes[1]", .obj [("id", .str "dup")]) "dup"
    (by simp [entriesList, nodeEntries, lookupF, idxPath]; decide)
    (by decide) (by decide)
    (fun e h => by rcases h with h | h | h <;> exact absurd h (List.not_mem_nil _))
    (by decide)


/-- Counterexample to claim C4 as stated: the single node references asset
id `"ghost"`, which names no entry of the assets list, yet no
"references missing asset" error is reported — the validator throws a
TypeError instead, because resolution reads `.id` off the `undefined`
assets entry before reaching the missing-asset push. -/
theorem missing_asset_claim_counterexample :
    nodeMissing [JValue.undef] ("nodes[0]", .obj [("id", .str "n"),
      ("asset", .obj [("assetId", .str "ghost")])]) =
        some ("nodes[0].asset", "ghost") ∧
    validateWorldDocumentMessages (.obj [("assets", .arr [.undef]),
      ("nodes", .arr [.obj [("id", .str "n"),
        ("asset", .obj [("assetId", .str "ghost")])]])]) = .error "TypeError" := by
  refine ⟨by decide, ?_⟩
  simp [validateWorldDocumentMessages, validateWorldDocument, validateNodeList,
    validateSceneNode, idCheck, miscChecks, validateAssets, validateAssetEntries,
    validateNodeAssetReference, findAsset, nullish, getF, lookupF, hasF, idxPath]
  decide

/-- Claim C4 (amended): consider a world document (an object whose `nodes`
field is an array) whose resolved asset list has no nullish entry — the
proviso under which resolution cannot throw.  If some visited node carries
an asset reference whose well-formed `assetId` resolves to no asset
(`nodeMissing`, which consults the best-effort id set `bestEffortIds`,
built from every assets entry that parsed as a record with a string `id`,
whatever its other fields), then `validateWorldDocument` returns
`valid = false` with a "references missing asset" error at that node's
path, and the resolution of that id is exactly membership in the
best-effort id set. -/
theorem missing_asset_reported (fs : List (String × JValue)) (xs : List JValue)
    (hnodes : getF fs "nodes" = .arr xs)
    (hok : assetsOk (validateAssets (getF fs "assets") "assets").2 = true)
    (e : String × JValue) (q a : String)
    (he : e ∈ entriesList xs "nodes" 0)
    (hm : nodeMissing (validateAssets (getF fs "assets") "assets").2 e = some (q, a)) :
    ∃ errs, validateWorldDocument (.obj fs) = .ok (false, errs) ∧
      VErr.missingAsset q a ∈ errs ∧
      findAsset (validateAssets (getF fs "assets") "assets").2 a =
        .ok (decide (a ∈ bestEffortIds (validateAssets (getF fs "assets") "assets").2)) := by
  obtain ⟨errs, hW, hD, hM⟩ := validateWorldDocument_flags hnodes hok
  have hmem : VErr.missingAsset q a ∈ errs := by
    rw [hM]
    rw [missingFlags]
    exact List.mem_filterMap.mpr ⟨e, he, hm⟩
  have hfalse : errs.isEmpty = false := by
    cases errs with
    | nil => exact absurd hmem (List.not_mem_nil _)
    | cons b l => rfl
  rw [hfalse] at hW
  exact ⟨errs, hW, hmem, findAsset_spec a hok⟩

/-- Witness for the amended C4 at a concrete document: the assets entry
`{ id: "a1" }` has no `uri`, yet contributes its id; the node's reference
to `"missing"` resolves against that best-effort set and is reported. -/
theorem missing_asset_reported_witness :
    ∃ errs, validateWorldDocument (.obj [("assets", .arr [.obj [("id", .str "a1")]]),
        ("nodes", .arr [.obj [("id", .str "n"),
          ("asset", .obj [("assetId", .str "missing")])]])]) = .ok (false, errs) ∧
      VErr.missingAsset "nodes[0].asset" "missing" ∈ errs ∧
      findAsset (validateAssets (getF [("assets", .arr [.obj [("id", .str "a1")]]),
          ("nodes", .arr [.obj [("id", .str "n"),
            ("asset", .obj [("assetId", .str "missing")])]])] "assets") "assets").2
          "missing" =
        .ok (decide ("missing" ∈ bestEffortIds (validateAssets
          (getF [("assets", .arr [.obj [("id", .str "a1")]]),
            ("nodes", .arr [.obj [("id", .str "n"),
              ("asset", .obj [("assetId", .str "missing")])]])] "assets") "assets").2)) :=
  missing_asset_reported
    [("assets", .arr [.obj [("id", .str "a1")]]),
      ("nodes", .arr [.obj [("id", .str "n"),
        ("asset", .obj [("assetId", .str "missing")])]])]
    [.obj [("id", .str "n"), ("asset", .obj [("assetId", .str "missing")])]]
    rfl (by decide)
    ("nodes[0]", .obj [("id", .str "n"), ("asset", .obj [("assetId", .str "missing")])])
    "nodes[0].asset" "missing"
    (by simp [entriesList, nodeEntries, lookupF, idxPath]; decide)
    (by decide)

end WorldEngine
